import Mathlib

/-!
Shallow embedding of `src/mermaid_mcp_server.py` (mcp-mermaid-diagram) and
verification of its specification.

Text is modelled as `List Char` (Python `str`). The regular-expression
operations of the source are translated into explicit scanning functions whose
semantics coincide with Python's `re` module on the concrete patterns the
source uses: leftmost, non-overlapping matches, scanning position advancing by
one character after a failed attempt and past the whole match after a
successful one. Where a pattern contains a greedy quantifier, the quantifier
admits a unique viable extent (argued in the doc comment of each function), so
backtracking is resolved statically. The character classes `\s`, `\w`, `\d`
and `re.IGNORECASE` case folding are modelled over their ASCII meaning.
Effectful code (subprocess, filesystem) is embedded by passing the observed
results of each effect as explicit parameters.
-/

/-- Python regex `\s` (ASCII portion): space, tab, newline, carriage return,
vertical tab, form feed. -/
def pyIsSpace (c : Char) : Bool :=
  c == ' ' || c == '\t' || c == '\n' || c == '\r' || c == '\x0b' || c == '\x0c'

/-- Python regex `\w` (ASCII portion): letters, digits, underscore. -/
def isWordChar (c : Char) : Bool :=
  (decide ('a' ≤ c ∧ c ≤ 'z')) || (decide ('A' ≤ c ∧ c ≤ 'Z')) || c.isDigit || c == '_'

/-- Python `str.strip()` (ASCII whitespace): drop leading and trailing
whitespace. -/
def pyStrip (l : List Char) : List Char :=
  ((l.dropWhile pyIsSpace).reverse.dropWhile pyIsSpace).reverse

/-- Head test used when a pattern requires one further character of a given
class after a literal or a run. -/
def headIs (p : Char → Bool) : List Char → Bool
  | [] => false
  | d :: _ => p d

/-- `containsSub pat l`: `pat` occurs as a contiguous substring of `l`
(`re.search` for a literal pattern). -/
def containsSub (pat : List Char) : List Char → Bool
  | [] => pat.isEmpty
  | c :: rest => pat.isPrefixOf (c :: rest) || containsSub pat rest

/-- Scan for the regex `pat\s+` where `pat` is a literal (also the effective
meaning of `graph\s+[TBLR]?[DRLR]?` and `flowchart\s+[TBLR]?[DRLR]?`, whose
trailing character classes are optional): an occurrence of `pat` immediately
followed by at least one whitespace character. -/
def hasPatWS (pat : List Char) : List Char → Bool
  | [] => false
  | c :: rest =>
    (pat.isPrefixOf (c :: rest) && headIs pyIsSpace ((c :: rest).drop pat.length)) ||
      hasPatWS pat rest

/-- Scan for the regex `pie\s*title`: `\s*` is greedy and a shorter run of
whitespace would have to be followed by `t` while the next character is still
whitespace, so the maximal run is the only viable extent. -/
def hasPieTitle : List Char → Bool
  | [] => false
  | c :: rest =>
    ((("pie").data.isPrefixOf (c :: rest)) &&
      (("title").data.isPrefixOf (((c :: rest).drop 3).dropWhile pyIsSpace))) ||
      hasPieTitle rest

/-- Scan for the regex `kw\s+\w+` (used for `class\s+\w+` and `state\s+\w+`):
the literal keyword, at least one whitespace character (the greedy `\s+` can
only stop at the end of the whitespace run), then at least one word
character. -/
def hasKwWordArg (kw : List Char) : List Char → Bool
  | [] => false
  | c :: rest =>
    ((kw.isPrefixOf (c :: rest)) &&
      (headIs pyIsSpace ((c :: rest).drop kw.length)) &&
      (headIs isWordChar (((c :: rest).drop kw.length).dropWhile pyIsSpace))) ||
      hasKwWordArg kw rest

/-- Scan for the regex `class\s*:`: the literal, a maximal (possibly empty)
whitespace run, then a colon. -/
def hasClassColon : List Char → Bool
  | [] => false
  | c :: rest =>
    ((("class").data.isPrefixOf (c :: rest)) &&
      (headIs (fun d => d == ':') (((c :: rest).drop 5).dropWhile pyIsSpace))) ||
      hasClassColon rest

/-- The inclusion pattern list of `appears_to_be_mermaid_code`
(src/mermaid_mcp_server.py lines 35-49), each searched with `re.IGNORECASE`;
the argument is therefore the lower-cased text and the literals are given in
lower case. -/
def mermaid_patterns_match (lc : List Char) : Bool :=
  hasPatWS (("graph").data) lc ||
  containsSub (("sequencediagram").data) lc ||
  containsSub (("classdiagram").data) lc ||
  containsSub (("statediagram-v2").data) lc ||
  containsSub (("erdiagram").data) lc ||
  hasPieTitle lc ||
  containsSub (("gantt").data) lc ||
  hasPatWS (("flowchart").data) lc ||
  containsSub (("-->").data) lc ||
  containsSub (("--x").data) lc ||
  containsSub (("==>").data) lc ||
  containsSub (("subgraph").data) lc ||
  containsSub (("participant").data) lc ||
  hasKwWordArg (("class").data) lc ||
  hasKwWordArg (("state").data) lc

/-- The exclusion pattern `import\s+|def\s+|class\s*:` of
`appears_to_be_mermaid_code` (line 54). It is searched WITHOUT
`re.IGNORECASE`, on the original text. -/
def nonMermaidMatch (code : List Char) : Bool :=
  hasPatWS (("import").data) code || hasPatWS (("def").data) code || hasClassColon code

/-- `appears_to_be_mermaid_code` (lines 29-54): at least one inclusion pattern
matches (case-insensitively, modelled by lower-casing the text) and the
exclusion pattern does not match (case-sensitively, on the original text). -/
def appears_to_be_mermaid_code (code : List Char) : Bool :=
  mermaid_patterns_match (code.map Char.toLower) && ! nonMermaidMatch code

/-- The characters of `l` strictly before the first occurrence of three
consecutive backticks, or `none` when no such occurrence exists: the
non-greedy capture `(.*?)` followed by the closing fence. -/
def splitAtTriple : List Char → Option (List Char)
  | [] => none
  | c :: rest =>
    if ['\x60', '\x60', '\x60'].isPrefixOf (c :: rest) then some []
    else (splitAtTriple rest).map (fun s => c :: s)

/-- The optional language-tag group `(?:\w*\n)?` after the opening fence: a
maximal run of word characters followed by a newline is consumed when present
(the greedy `\w*` can only stop at the end of the word-character run). -/
def fenceBody (r : List Char) : List Char :=
  match r.dropWhile isWordChar with
  | '\n' :: rest => rest
  | _ => r

/-- Attempt the fenced-code-block regex of `extract_mermaid_code` (line 61,
with `re.DOTALL`) anchored at the start of `l`, returning the captured group.
When the optional group is consumable, consuming it changes neither match
existence (its word characters and newline contain no backtick, so a closing
fence follows the group exactly when it follows the opening fence), so the
greedy optional group commits. -/
def tryFence (l : List Char) : Option (List Char) :=
  if ['\x60', '\x60', '\x60'].isPrefixOf l then splitAtTriple (fenceBody (l.drop 3))
  else none

/-- The leftmost match of the fenced-code-block regex: `re.findall` scans left
to right and the source uses only the first capture (`code_block_matches[0]`),
so later matches are irrelevant. -/
def firstFence : List Char → Option (List Char)
  | [] => none
  | c :: rest =>
    match tryFence (c :: rest) with
    | some cap => some cap
    | none => firstFence rest

/-- `extract_mermaid_code` (lines 56-68): the stripped first fenced block when
one exists, else the stripped input. -/
def extract_mermaid_code (text : List Char) : List Char :=
  match firstFence text with
  | some cap => pyStrip cap
  | none => pyStrip text

/-- Python `str.replace pat rep` (and `re.sub` for a literal pattern): replace
the leftmost occurrence of `pat`, continue scanning after the replacement
without rescanning it. An empty pattern is never used by the source; it is
mapped to the identity. -/
def replaceAll : List Char → List Char → List Char → List Char
  | _, _, [] => []
  | p :: ps, rep, c :: rest =>
    if (p :: ps).isPrefixOf (c :: rest) then
      rep ++ replaceAll (p :: ps) rep (rest.drop ps.length)
    else
      c :: replaceAll (p :: ps) rep rest
  | [], _, l => l
termination_by _ _ l => l.length
decreasing_by
  · simp only [List.length_cons, List.length_drop]
    omega
  · simp only [List.length_cons]
    omega

/-- The step `re.sub(r'(\d+)\. ', r'\1: ', label)` of `sanitize_label`
(line 85): a maximal digit run followed by `. ` becomes the run followed by
`: `. A viable match must use the maximal run reached by the scan (a shorter
greedy `\d+` would have to be followed by `.` but is followed by a digit), and
when the maximal run at a digit is not followed by `. ` there is no match at
that digit, so the scan advances one character. -/
def sub_numdot : List Char → List Char
  | [] => []
  | c :: rest =>
    if c.isDigit then
      if (rest.dropWhile Char.isDigit).take 2 = ['.', ' '] then
        (c :: rest.takeWhile Char.isDigit) ++ ':' :: ' ' ::
          sub_numdot ((rest.dropWhile Char.isDigit).drop 2)
      else c :: sub_numdot rest
    else c :: sub_numdot rest
termination_by l => l.length
decreasing_by
  · have key : ∀ r : List Char, ((r.dropWhile Char.isDigit).drop 2).length < r.length + 1 := by
      intro r
      have h1 := (@List.dropWhile_suffix Char r Char.isDigit).length_le
      simp only [List.length_drop]
      omega
    simp only [List.length_cons]
    exact key _
  · simp only [List.length_cons]
    omega
  · simp only [List.length_cons]
    omega

/-- The step `re.sub(r'^- ', '– ', label)` of `sanitize_label` (line 87):
without `re.MULTILINE`, `^` matches only at the start of the label, so at most
one replacement happens, at position 0. -/
def sub_lead_dash : List Char → List Char
  | '-' :: ' ' :: rest => '–' :: ' ' :: rest
  | l => l

/-- The step `re.sub(r'\n- ', '\n– ', label)` of `sanitize_label` (line 88):
the pattern is literal, so `re.sub` is leftmost non-overlapping literal
replacement. -/
def sub_nl_dash (l : List Char) : List Char :=
  replaceAll ['\n', '-', ' '] ['\n', '–', ' '] l

/-- The step `label.replace('<br/>', '\\n')` of `sanitize_label` (line 90):
the replacement is the two characters backslash and `n`. -/
def replace_br_slash (l : List Char) : List Char :=
  replaceAll (("<br/>").data) (("\\n").data) l

/-- The step `label.replace('<br>', '\\n')` of `sanitize_label` (line 91). -/
def replace_br (l : List Char) : List Char :=
  replaceAll (("<br>").data) (("\\n").data) l

/-- `sanitize_label` (lines 82-92) applied to the captured group: the four
rewriting steps in source order. The re-wrapping into `["` ... `"]` done by
the Python closure is performed by the caller below. -/
def sanitize_label (lbl : List Char) : List Char :=
  replace_br (replace_br_slash (sub_nl_dash (sub_lead_dash (sub_numdot lbl))))

/-- `sanitize_markdown_in_labels` (lines 71-97): the scan of
`re.sub(r'\["([^"]+)"\]', sanitize_label, code)`. At an opening `["`, the
greedy `[^"]+` is exactly the maximal nonempty run of non-quote characters
(a shorter run would have to be followed by `"` but is followed by a
non-quote character); the match succeeds when that run is nonempty and is
followed by the closing `"]`. A leftmost match is rewritten to `["` ++
sanitized label ++ `"]` and the scan continues after it; at a position where
the pattern does not match the scan advances one character. After a failed
attempt at `[` the following `"` cannot begin a match (the pattern starts
with `[`), so the scan steps over both. -/
def sanitize_markdown_in_labels : List Char → List Char
  | [] => []
  | '[' :: '"' :: rest =>
    if (rest.dropWhile (fun c => c != '"')).take 2 = ['"', ']'] ∧
        rest.takeWhile (fun c => c != '"') ≠ [] then
      '[' :: '"' :: (sanitize_label (rest.takeWhile (fun c => c != '"')) ++ '"' :: ']' ::
        sanitize_markdown_in_labels ((rest.dropWhile (fun c => c != '"')).drop 2))
    else '[' :: '"' :: sanitize_markdown_in_labels rest
  | c :: rest => c :: sanitize_markdown_in_labels rest
termination_by l => l.length
decreasing_by
  · have h1 := (@List.dropWhile_suffix Char rest (fun c => c != '"')).length_le
    simp only [List.length_cons, List.length_drop]
    omega
  · simp only [List.length_cons]
    omega
  · simp only [List.length_cons]
    omega

/-- Outcome of the pure prefix of the `generate_diagram` branch of
`handle_call_tool` (lines 235-267). `missingInput` models the
`raise ValueError` hard input errors; `warningOnly` models the early `return`
of the warning TextContent at lines 261-267, after which the function is left
and no rendering happens; `renderAttempt src` models falling through to the
`mmdc` invocation with `src` as the diagram source written to the input
file. -/
inductive GenPhase1
  | missingInput
  | warningOnly
  | renderAttempt (finalSource : List Char)
deriving DecidableEq, Repr

/-- The pure prefix of the `generate_diagram` branch (lines 239-267): the
empty-input checks (Python string truthiness is non-emptiness), performed
before any extraction or sanitization, then extraction, then label
sanitization, then the syntax heuristic deciding between rendering and the
early warning return. -/
def generate_diagram_pre (mermaid_code file_name : List Char) : GenPhase1 :=
  if mermaid_code = [] then .missingInput
  else if file_name = [] then .missingInput
  else
    let extracted := sanitize_markdown_in_labels (extract_mermaid_code mermaid_code)
    if appears_to_be_mermaid_code extracted then .renderAttempt extracted
    else .warningOnly

/-- Verdicts of the `validate_mermaid` branch, in the spec's vocabulary:
`emptyInput` covers both the "No Mermaid code provided for validation" early
return and the "Validation failed: Empty code block found" return. -/
inductive ValidateVerdict
  | emptyInput
  | looksValid
  | looksInvalid
deriving DecidableEq, Repr

/-- The `validate_mermaid` branch of `handle_call_tool` (lines 493-532). The
branch only calls `extract_mermaid_code` and `appears_to_be_mermaid_code`;
its embedding needs no filesystem or subprocess parameters, which witnesses
that it touches neither layer. -/
def validate_mermaid (mermaid_code : List Char) : ValidateVerdict :=
  if mermaid_code = [] then .emptyInput
  else
    let extracted := extract_mermaid_code mermaid_code
    if pyStrip extracted = [] then .emptyInput
    else if appears_to_be_mermaid_code extracted then .looksValid
    else .looksInvalid

/-- Terminal reports of the render phase of `generate_diagram`
(lines 398-476), in the spec's vocabulary. `persistFailed` models the
`except` branch around the save-and-verify block ("Error saving file ...");
`succeededSvg` carries the SVG text returned inline (and re-persisted). -/
inductive RenderReport
  | renderFailed (stderr : List Char)
  | outputMissing
  | persistFailed
  | succeededSvg (svgText : List Char)
  | succeededBinary (byteLen : Nat)
deriving DecidableEq, Repr

/-- The post-subprocess phase of `generate_diagram` (lines 398-476) with the
effectful environment passed explicitly: `returncode` and `stderr` of the
`mmdc` subprocess, whether the declared output file exists, the byte length
`len(file_content)` of the artifact read back, its UTF-8 decoded text
`decoded` (decoding is left abstract and supplied by the environment), whether
the durable copy exists after writing, and the size `os.path.getsize` reports
for it. Branch order follows the source: non-zero exit, output existence,
durable-copy existence, size verification, then format-specific
post-processing, where an SVG rendered for a transparent background has every
occurrence of `background-color: white;` replaced. -/
def finish_generate (returncode : Int) (stderr : List Char) (output_exists : Bool)
    (file_len : Nat) (decoded : List Char) (permanent_exists : Bool) (actual_size : Nat)
    (output_format : List Char) (background_color : List Char) : RenderReport :=
  if returncode ≠ 0 then .renderFailed stderr
  else if output_exists then
    if ¬ permanent_exists then .persistFailed
    else if actual_size ≠ file_len then .persistFailed
    else if output_format = ("svg").data then
      let svg_content :=
        if background_color = ("transparent").data then
          replaceAll (("background-color: white;").data)
            (("background-color: transparent;").data) decoded
        else decoded
      .succeededSvg svg_content
    else .succeededBinary file_len
  else .outputMissing

/-- Alternating gap/label assembly used to state the frame property of the
sanitizer: `assemble f g0 [(l1, g1), ..., (ln, gn)]` is
`g0 ++ ["f l1"] ++ g1 ++ ... ++ ["f ln"] ++ gn`. -/
def assemble (f : List Char → List Char) : List Char → List (List Char × List Char) → List Char
  | g0, [] => g0
  | g0, (lbl, g) :: ps => g0 ++ ('[' :: '"' :: f lbl) ++ ('"' :: ']' :: assemble f g ps)

/-- A Prop-level reading of pattern-freeness for the numbered-list step: no
digit immediately followed by `. ` occurs anywhere in the text. A regex match
of `(\d+)\. ` exists iff some digit is directly followed by `. ` (the last
digit of the run), so this characterizes absence of matches. -/
def NoNumDot (l : List Char) : Prop :=
  ∀ d : Char, d.isDigit = true → ¬ ([d, '.', ' '] <:+: l)

theorem prefix_append_cases {u a b : List Char} (h : u <+: a ++ b) :
    u <+: a ∨ (a <+: u ∧ u.drop a.length <+: b) := by
  by_cases hl : u.length ≤ a.length
  · left
    have h1 : u = (a ++ b).take u.length := List.prefix_iff_eq_take.mp h
    rw [List.take_append_eq_append_take] at h1
    have h2 : u.length - a.length = 0 := by omega
    rw [h2] at h1
    simp only [List.take_zero, List.append_nil] at h1
    rw [h1]
    exact List.take_prefix _ _
  · push_neg at hl
    right
    have h1 : u = (a ++ b).take u.length := List.prefix_iff_eq_take.mp h
    constructor
    · have h2 : u.take a.length = a := by
        rw [h1, List.take_take, min_eq_left (le_of_lt hl), List.take_append_eq_append_take]
        simp
      refine ⟨u.drop a.length, ?_⟩
      have h6 := List.take_append_drop a.length u
      rw [h2] at h6
      exact h6
    · obtain ⟨t, ht⟩ := h
      have h3 := congrArg (List.drop a.length) ht
      rw [List.drop_append_eq_append_drop, List.drop_append_eq_append_drop] at h3
      have h4 : a.length - u.length = 0 := by omega
      rw [h4, List.drop_zero, List.drop_length, Nat.sub_self, List.drop_zero] at h3
      rw [List.nil_append] at h3
      exact ⟨t, h3⟩

theorem infix_append_cases {q a b : List Char} (h : q <:+: a ++ b) :
    q <:+: a ∨ q <:+: b ∨
      ∃ q1 q2, q = q1 ++ q2 ∧ q1 ≠ [] ∧ q2 ≠ [] ∧ q1 <:+ a ∧ q2 <+: b := by
  obtain ⟨s, t, hst⟩ := h
  rw [List.append_assoc] at hst
  by_cases h1 : a.length ≤ s.length
  · right; left
    have h3 := congrArg (List.drop a.length) hst
    rw [List.drop_append_eq_append_drop] at h3
    have h4 : a.length - s.length = 0 := by omega
    rw [h4, List.drop_zero] at h3
    have h5 : (a ++ b).drop a.length = b := by simp
    rw [h5] at h3
    refine ⟨s.drop a.length, t, ?_⟩
    rw [List.append_assoc]
    exact h3
  · push_neg at h1
    by_cases h2 : s.length + q.length ≤ a.length
    · left
      have h3 := congrArg (List.take a.length) hst
      rw [List.take_append_eq_append_take, List.take_append_eq_append_take] at h3
      have h5 : (a ++ b).take a.length = a := by simp
      rw [h5] at h3
      have h7 : s.take a.length = s := List.take_of_length_le (by omega)
      have h8 : q.take (a.length - s.length) = q := List.take_of_length_le (by omega)
      rw [h7, h8] at h3
      refine ⟨s, t.take (a.length - s.length - q.length), ?_⟩
      rw [List.append_assoc]
      exact h3
    · push_neg at h2
      right; right
      refine ⟨q.take (a.length - s.length), q.drop (a.length - s.length),
        (List.take_append_drop _ _).symm, ?_, ?_, ?_, ?_⟩
      · intro hc
        have := congrArg List.length hc
        simp only [List.length_take, List.length_nil] at this
        omega
      · intro hc
        have := congrArg List.length hc
        simp only [List.length_drop, List.length_nil] at this
        omega
      · have h3 := congrArg (List.take a.length) hst
        rw [List.take_append_eq_append_take, List.take_append_eq_append_take] at h3
        have h5 : (a ++ b).take a.length = a := by simp
        rw [h5] at h3
        have h7 : s.take a.length = s := List.take_of_length_le (by omega)
        rw [h7] at h3
        have h8 : t.take (a.length - s.length - q.length) = ([] : List Char) := by
          have h9 : a.length - s.length - q.length = 0 := by omega
          rw [h9, List.take_zero]
        rw [h8, List.append_nil] at h3
        exact ⟨s, h3⟩
      · have h3 := congrArg (List.drop a.length) hst
        rw [List.drop_append_eq_append_drop, List.drop_append_eq_append_drop] at h3
        have h5 : (a ++ b).drop a.length = b := by simp
        have h6 : s.drop a.length = ([] : List Char) := List.drop_eq_nil_of_le (by omega)
        have h9 : a.length - s.length - q.length = 0 := by omega
        rw [h5, h6, h9, List.drop_zero, List.nil_append] at h3
        exact ⟨t, h3⟩

theorem replaceAll_nil (pat rep : List Char) : replaceAll pat rep [] = [] := by
  cases pat <;> simp [replaceAll]

theorem replaceAll_cons_pos {pat : List Char} (rep : List Char) {c : Char} {rest : List Char}
    (hne : pat ≠ []) (h : pat.isPrefixOf (c :: rest) = true) :
    replaceAll pat rep (c :: rest) = rep ++ replaceAll pat rep ((c :: rest).drop pat.length) := by
  obtain ⟨p, ps, rfl⟩ : ∃ p ps, pat = p :: ps := by
    cases pat with
    | nil => exact absurd rfl hne
    | cons p ps => exact ⟨p, ps, rfl⟩
  simp only [replaceAll, h, if_true, List.length_cons, List.drop_succ_cons]

theorem replaceAll_cons_neg {pat : List Char} (rep : List Char) {c : Char} {rest : List Char}
    (hne : pat ≠ []) (h : pat.isPrefixOf (c :: rest) = false) :
    replaceAll pat rep (c :: rest) = c :: replaceAll pat rep rest := by
  obtain ⟨p, ps, rfl⟩ : ∃ p ps, pat = p :: ps := by
    cases pat with
    | nil => exact absurd rfl hne
    | cons p ps => exact ⟨p, ps, rfl⟩
  simp only [replaceAll, h, if_false, Bool.false_eq_true]

theorem replaceAll_id_of_no_match {pat rep l : List Char} (hne : pat ≠ [])
    (h : ¬ pat <:+: l) : replaceAll pat rep l = l := by
  induction l with
  | nil => exact replaceAll_nil pat rep
  | cons c rest ih =>
    have hpre : pat.isPrefixOf (c :: rest) = false := by
      by_contra hc
      have ht : pat.isPrefixOf (c :: rest) = true := by
        cases hb : pat.isPrefixOf (c :: rest) with
        | true => rfl
        | false => exact absurd hb hc
      exact h ( List.isPrefixOf_iff_prefix.mp ht).isInfix
    rw [replaceAll_cons_neg rep hne hpre,
      ih (fun hi => h (List.infix_cons_iff.mpr (Or.inr hi)))]

theorem replaceAll_prefix_propagate {pat rep q : List Char} (hne : pat ≠ [])
    (hdiv : ∀ k, k < q.length → ¬ (q.drop k <+: rep) ∧ ¬ (rep <+: q.drop k)) :
    ∀ l k, q.drop k <+: replaceAll pat rep l → q.drop k <+: l := by
  intro l
  induction l with
  | nil =>
    intro k hk
    rw [replaceAll_nil] at hk
    rw [List.prefix_nil] at hk
    simp [hk]
  | cons c rest ih =>
    intro k hk
    by_cases hklen : q.length ≤ k
    · rw [List.drop_eq_nil_of_le hklen]
      exact List.nil_prefix
    · push_neg at hklen
      cases hpre : pat.isPrefixOf (c :: rest) with
      | true =>
        rw [replaceAll_cons_pos rep hne hpre] at hk
        rcases prefix_append_cases hk with h1 | ⟨h2, _⟩
        · exact absurd h1 (hdiv k hklen).1
        · exact absurd h2 (hdiv k hklen).2
      | false =>
        rw [replaceAll_cons_neg rep hne hpre] at hk
        have hq : q.drop k = q[k] :: q.drop (k + 1) := List.drop_eq_getElem_cons hklen
        rw [hq] at hk ⊢
        rcases List.prefix_cons_iff.mp hk with h1 | ⟨t, ht, hp⟩
        · exact absurd h1 (List.cons_ne_nil _ _)
        · obtain ⟨he1, he2⟩ := List.cons.inj ht
          have hp' : q.drop (k + 1) <+: replaceAll pat rep rest := by rw [he2]; exact hp
          have := ih (k + 1) hp'
          exact List.cons_prefix_cons.mpr ⟨he1, this⟩

theorem replaceAll_not_infix_self {pat rep : List Char} (hne : pat ≠ [])
    (hdiv : ∀ k, k < pat.length → ¬ (pat.drop k <+: rep) ∧ ¬ (rep <+: pat.drop k))
    (hsuf : ∀ k, k < rep.length → ¬ (rep.drop k <+: pat))
    (hinrep : ¬ pat <:+: rep) :
    ∀ l, ¬ pat <:+: replaceAll pat rep l := by
  have main : ∀ n l, List.length l ≤ n → ¬ pat <:+: replaceAll pat rep l := by
    intro n
    induction n with
    | zero =>
      intro l hl
      have h0 : l = [] := List.length_eq_zero.mp (Nat.le_zero.mp hl)
      rw [h0, replaceAll_nil, List.infix_nil]
      exact hne
    | succ n ih =>
      intro l hl
      cases l with
      | nil =>
        rw [replaceAll_nil, List.infix_nil]
        exact hne
      | cons c rest =>
        cases hpre : pat.isPrefixOf (c :: rest) with
        | true =>
          rw [replaceAll_cons_pos rep hne hpre]
          intro hocc
          rcases infix_append_cases hocc with h1 | h2 | ⟨q1, q2, heq, hq1ne, hq2ne, hq1suf, _⟩
          · exact hinrep h1
          · have hlen : ((c :: rest).drop pat.length).length ≤ n := by
              simp only [List.length_drop, List.length_cons]
              simp only [List.length_cons] at hl
              have : 1 ≤ pat.length := by
                cases pat with
                | nil => exact absurd rfl hne
                | cons _ _ => simp
              omega
            exact ih _ hlen h2
          · have hq1pat : q1 <+: pat := ⟨q2, heq.symm⟩
            have hdropeq : q1 = rep.drop (rep.length - q1.length) :=
              List.suffix_iff_eq_drop.mp hq1suf
            have hq1pos : 0 < q1.length := List.length_pos.mpr hq1ne
            have hk : rep.length - q1.length < rep.length := by
              have := hq1suf.length_le
              omega
            exact hsuf _ hk (by rw [← hdropeq]; exact hq1pat)
        | false =>
          rw [replaceAll_cons_neg rep hne hpre]
          intro hocc
          rcases List.infix_cons_iff.mp hocc with h1 | h2
          · have h3 : pat <+: replaceAll pat rep (c :: rest) := by
              rw [replaceAll_cons_neg rep hne hpre]
              exact h1
            have h4 := replaceAll_prefix_propagate hne hdiv (c :: rest) 0
              (by rw [List.drop_zero]; exact h3)
            rw [List.drop_zero] at h4
            have h5 : pat.isPrefixOf (c :: rest) = true := List.isPrefixOf_iff_prefix.mpr h4
            rw [hpre] at h5
            exact absurd h5 (by simp)
          · have hlen : rest.length ≤ n := by
              simp only [List.length_cons] at hl
              omega
            exact ih rest hlen h2
  intro l
  exact main l.length l le_rfl

theorem replaceAll_preserves_no_match {pat rep q : List Char} (hne : pat ≠ [])
    (hqdiv : ∀ k, k < q.length → ¬ (q.drop k <+: rep) ∧ ¬ (rep <+: q.drop k))
    (hsufq : ∀ k, k < rep.length → ¬ (rep.drop k <+: q))
    (hqinrep : ¬ q <:+: rep) :
    ∀ l, ¬ q <:+: l → ¬ q <:+: replaceAll pat rep l := by
  have main : ∀ n l, List.length l ≤ n → ¬ q <:+: l → ¬ q <:+: replaceAll pat rep l := by
    intro n
    induction n with
    | zero =>
      intro l hl hq
      have h0 : l = [] := List.length_eq_zero.mp (Nat.le_zero.mp hl)
      rw [h0, replaceAll_nil]
      rw [h0] at hq
      exact hq
    | succ n ih =>
      intro l hl hq
      cases l with
      | nil =>
        rw [replaceAll_nil]
        exact hq
      | cons c rest =>
        cases hpre : pat.isPrefixOf (c :: rest) with
        | true =>
          rw [replaceAll_cons_pos rep hne hpre]
          intro hocc
          rcases infix_append_cases hocc with h1 | h2 | ⟨q1, q2, heq, hq1ne, hq2ne, hq1suf, _⟩
          · exact hqinrep h1
          · have hlen : ((c :: rest).drop pat.length).length ≤ n := by
              simp only [List.length_drop, List.length_cons]
              simp only [List.length_cons] at hl
              have : 1 ≤ pat.length := by
                cases pat with
                | nil => exact absurd rfl hne
                | cons _ _ => simp
              omega
            have hqd : ¬ q <:+: (c :: rest).drop pat.length :=
              fun hi => hq (hi.trans (List.drop_suffix _ _).isInfix)
            exact ih _ hlen hqd h2
          · have hq1pat : q1 <+: q := ⟨q2, heq.symm⟩
            have hdropeq : q1 = rep.drop (rep.length - q1.length) :=
              List.suffix_iff_eq_drop.mp hq1suf
            have hq1pos : 0 < q1.length := List.length_pos.mpr hq1ne
            have hk : rep.length - q1.length < rep.length := by
              have := hq1suf.length_le
              omega
            exact hsufq _ hk (by rw [← hdropeq]; exact hq1pat)
        | false =>
          rw [replaceAll_cons_neg rep hne hpre]
          intro hocc
          rcases List.infix_cons_iff.mp hocc with h1 | h2
          · have h3 : q <+: replaceAll pat rep (c :: rest) := by
              rw [replaceAll_cons_neg rep hne hpre]
              exact h1
            have h4 := replaceAll_prefix_propagate hne hqdiv (c :: rest) 0
              (by rw [List.drop_zero]; exact h3)
            rw [List.drop_zero] at h4
            exact hq h4.isInfix
          · have hlen : rest.length ≤ n := by
              simp only [List.length_cons] at hl
              omega
            have hqr : ¬ q <:+: rest :=
              fun hi => hq (List.infix_cons_iff.mpr (Or.inr hi))
            exact ih rest hlen hqr h2
  intro l
  exact main l.length l le_rfl

theorem replaceAll_ne_nil {pat rep : List Char} (hne : pat ≠ []) (hrep : rep ≠ []) :
    ∀ l, l ≠ [] → replaceAll pat rep l ≠ [] := by
  intro l hl
  cases l with
  | nil => exact absurd rfl hl
  | cons c rest =>
    cases hpre : pat.isPrefixOf (c :: rest) with
    | true =>
      rw [replaceAll_cons_pos rep hne hpre]
      simp [hrep]
    | false =>
      rw [replaceAll_cons_neg rep hne hpre]
      simp

theorem replaceAll_head? {pat rep : List Char} (hne : pat ≠ []) (hrep : rep ≠ []) :
    ∀ l, (replaceAll pat rep l).head? = l.head? ∨ (replaceAll pat rep l).head? = rep.head? := by
  intro l
  cases l with
  | nil => left; rw [replaceAll_nil]
  | cons c rest =>
    cases hpre : pat.isPrefixOf (c :: rest) with
    | true =>
      right
      rw [replaceAll_cons_pos rep hne hpre]
      obtain ⟨r, rs, rfl⟩ : ∃ r rs, rep = r :: rs := by
        cases rep with
        | nil => exact absurd rfl hrep
        | cons r rs => exact ⟨r, rs, rfl⟩
      rfl
    | false =>
      left
      rw [replaceAll_cons_neg rep hne hpre]
      rfl

theorem sub_numdot_nil : sub_numdot [] = [] := by
  simp [sub_numdot]

theorem sub_numdot_cons_pos {c : Char} {rest : List Char} (hd : c.isDigit = true)
    (h : (rest.dropWhile Char.isDigit).take 2 = ['.', ' ']) :
    sub_numdot (c :: rest) =
      (c :: rest.takeWhile Char.isDigit) ++ ':' :: ' ' ::
        sub_numdot ((rest.dropWhile Char.isDigit).drop 2) := by
  simp only [sub_numdot]
  rw [if_pos hd, if_pos h]

theorem sub_numdot_cons_neg {c : Char} {rest : List Char} (hd : c.isDigit = true)
    (h : ¬ (rest.dropWhile Char.isDigit).take 2 = ['.', ' ']) :
    sub_numdot (c :: rest) = c :: sub_numdot rest := by
  simp only [sub_numdot]
  rw [if_pos hd, if_neg h]

theorem sub_numdot_cons_nondigit {c : Char} {rest : List Char} (hd : c.isDigit = false) :
    sub_numdot (c :: rest) = c :: sub_numdot rest := by
  simp only [sub_numdot]
  rw [if_neg (by simp [hd])]

theorem sub_numdot_head? : ∀ l : List Char, (sub_numdot l).head? = l.head? := by
  intro l
  cases l with
  | nil => rw [sub_numdot_nil]
  | cons c rest =>
    cases hd : c.isDigit with
    | true =>
      by_cases h : (rest.dropWhile Char.isDigit).take 2 = ['.', ' ']
      · rw [sub_numdot_cons_pos hd h]
        rfl
      · rw [sub_numdot_cons_neg hd h]
        rfl
    | false =>
      rw [sub_numdot_cons_nondigit hd]
      rfl

theorem sub_numdot_id {l : List Char} (h : NoNumDot l) : sub_numdot l = l := by
  induction l with
  | nil => exact sub_numdot_nil
  | cons c rest ih =>
    have hrest : NoNumDot rest := by
      intro d hd hocc
      exact h d hd (List.infix_cons_iff.mpr (Or.inr hocc))
    cases hd : c.isDigit with
    | false => rw [sub_numdot_cons_nondigit hd, ih hrest]
    | true =>
      have hneg : ¬ (rest.dropWhile Char.isDigit).take 2 = ['.', ' '] := by
        intro htk
        have hsplit : rest.dropWhile Char.isDigit =
            ['.', ' '] ++ (rest.dropWhile Char.isDigit).drop 2 := by
          conv_lhs => rw [← List.take_append_drop 2 (rest.dropWhile Char.isDigit)]
          rw [htk]
        have hrunne : (c :: rest.takeWhile Char.isDigit) ≠ [] := List.cons_ne_nil _ _
        have hdec : c :: rest =
            (c :: rest.takeWhile Char.isDigit) ++ rest.dropWhile Char.isDigit := by
          simp only [List.cons_append, List.cons.injEq, true_and]
          exact (List.takeWhile_append_dropWhile Char.isDigit rest).symm
        have hall : ∀ x ∈ (c :: rest.takeWhile Char.isDigit), x.isDigit = true := by
          intro x hx
          rcases List.mem_cons.mp hx with h1 | h1
          · rw [h1]; exact hd
          · exact List.mem_takeWhile_imp h1
        have hlast := List.dropLast_append_getLast hrunne
        apply h ((c :: rest.takeWhile Char.isDigit).getLast hrunne)
          (hall _ (List.getLast_mem hrunne))
        refine ⟨(c :: rest.takeWhile Char.isDigit).dropLast,
          (rest.dropWhile Char.isDigit).drop 2, ?_⟩
        rw [hdec]
        conv_rhs => rw [hsplit, ← hlast]
        simp [List.append_assoc]
      rw [sub_numdot_cons_neg hd hneg, ih hrest]

theorem sub_numdot_prefix_dotspace : ∀ l : List Char, ['.', ' '] <+: sub_numdot l →
    ['.', ' '] <+: l := by
  intro l
  cases l with
  | nil => rw [sub_numdot_nil]; exact fun h => h
  | cons e rest =>
    intro hp
    cases hd : e.isDigit with
    | true =>
      by_cases h : (rest.dropWhile Char.isDigit).take 2 = ['.', ' ']
      · rw [sub_numdot_cons_pos hd h] at hp
        have he : ('.' : Char) = e := (List.cons_prefix_cons.mp (by simpa using hp)).1
        rw [← he] at hd
        exact absurd hd (by decide)
      · rw [sub_numdot_cons_neg hd h] at hp
        have he : ('.' : Char) = e := (List.cons_prefix_cons.mp hp).1
        rw [← he] at hd
        exact absurd hd (by decide)
    | false =>
      rw [sub_numdot_cons_nondigit hd] at hp
      obtain ⟨he, hp2⟩ := List.cons_prefix_cons.mp hp
      cases rest with
      | nil =>
        rw [sub_numdot_nil, List.prefix_nil] at hp2
        exact absurd hp2 (by simp)
      | cons f rest2 =>
        have hh := sub_numdot_head? (f :: rest2)
        have hfe : (' ' : Char) = f := by
          cases hout : sub_numdot (f :: rest2) with
          | nil =>
            rw [hout, List.prefix_nil] at hp2
            exact absurd hp2 (by simp)
          | cons g out2 =>
            rw [hout] at hh hp2
            obtain ⟨hg, _⟩ := List.cons_prefix_cons.mp hp2
            simp only [List.head?_cons, Option.some.injEq] at hh
            exact hg.trans hh
        rw [List.cons_prefix_cons]
        refine ⟨he, ?_⟩
        rw [List.cons_prefix_cons]
        exact ⟨hfe, List.nil_prefix⟩

theorem suffix_of_suffix_append {x y q : List Char} (h : q <:+ x ++ y)
    (hl : q.length ≤ y.length) : q <:+ y := by
  have heq := List.suffix_iff_eq_drop.mp h
  rw [List.length_append, List.drop_append_eq_append_drop] at heq
  have h5 : x.drop (x.length + y.length - q.length) = [] :=
    List.drop_eq_nil_of_le (by omega)
  rw [h5, List.nil_append] at heq
  have h6 : x.length + y.length - q.length - x.length = y.length - q.length := by omega
  rw [h6] at heq
  rw [heq]
  exact List.drop_suffix _ _

theorem sub_numdot_free : ∀ l : List Char, NoNumDot (sub_numdot l) := by
  have main : ∀ n l, List.length l ≤ n → NoNumDot (sub_numdot l) := by
    intro n
    induction n with
    | zero =>
      intro l hl
      have h0 : l = [] := List.length_eq_zero.mp (Nat.le_zero.mp hl)
      rw [h0, sub_numdot_nil]
      intro d _ hocc
      have := hocc.length_le
      simp at this
    | succ n ih =>
      intro l hl
      cases l with
      | nil =>
        rw [sub_numdot_nil]
        intro d _ hocc
        have := hocc.length_le
        simp at this
      | cons c rest =>
        have hrestlen : rest.length ≤ n := by
          simp only [List.length_cons] at hl
          omega
        cases hd : c.isDigit with
        | false =>
          rw [sub_numdot_cons_nondigit hd]
          intro d hdig hocc
          rcases List.infix_cons_iff.mp hocc with h1 | h2
          · obtain ⟨h3, _⟩ := List.cons_prefix_cons.mp h1
            rw [h3] at hdig
            rw [hdig] at hd
            exact absurd hd (by simp)
          · exact ih rest hrestlen d hdig h2
        | true =>
          by_cases h : (rest.dropWhile Char.isDigit).take 2 = ['.', ' ']
          · rw [sub_numdot_cons_pos hd h]
            have hassoc : (c :: rest.takeWhile Char.isDigit) ++ ':' :: ' ' ::
                sub_numdot ((rest.dropWhile Char.isDigit).drop 2) =
                ((c :: rest.takeWhile Char.isDigit) ++ [':', ' ']) ++
                  sub_numdot ((rest.dropWhile Char.isDigit).drop 2) := by
              simp
            rw [hassoc]
            intro d hdig hocc
            have hr2len : ((rest.dropWhile Char.isDigit).drop 2).length ≤ n := by
              have h6 := (@List.dropWhile_suffix Char rest Char.isDigit).length_le
              simp only [List.length_drop]
              omega
            rcases infix_append_cases hocc with h1 | h2 | h3
            · have hdot : ('.' : Char) ∈ (c :: rest.takeWhile Char.isDigit) ++ [':', ' '] :=
                h1.subset (by simp)
              rcases List.mem_append.mp hdot with h4 | h4
              · rcases List.mem_cons.mp h4 with h5 | h5
                · rw [← h5] at hd
                  exact absurd hd (by decide)
                · exact absurd (List.mem_takeWhile_imp h5) (by decide)
              · simp at h4
            · exact ih _ hr2len d hdig h2
            · obtain ⟨q1, q2, heq, hq1ne, hq2ne, hq1suf, _⟩ := h3
              have hlen3 : q1.length + q2.length = 3 := by
                have h4 := congrArg List.length heq
                simpa using h4.symm
              have hq1pos : 0 < q1.length := List.length_pos.mpr hq1ne
              have hq2pos : 0 < q2.length := List.length_pos.mpr hq2ne
              have hq1suf2 : q1 <:+ [':', ' '] := suffix_of_suffix_append hq1suf
                (by simp only [List.length_cons, List.length_nil]; omega)
              have hq1eq := List.suffix_iff_eq_drop.mp hq1suf2
              have hcase : q1.length = 1 ∨ q1.length = 2 := by omega
              rcases hcase with h4 | h4
              · rw [h4] at hq1eq
                simp only [List.length_cons, List.length_nil] at hq1eq
                norm_num at hq1eq
                rw [hq1eq] at heq
                have h5 : d = ' ' := by
                  have := congrArg List.head? heq
                  simpa using this
                rw [h5] at hdig
                exact absurd hdig (by decide)
              · rw [h4] at hq1eq
                simp only [List.length_cons, List.length_nil] at hq1eq
                norm_num at hq1eq
                rw [hq1eq] at heq
                have h5 : d = ':' := by
                  have := congrArg List.head? heq
                  simpa using this
                rw [h5] at hdig
                exact absurd hdig (by decide)
          · rw [sub_numdot_cons_neg hd h]
            intro d hdig hocc
            rcases List.infix_cons_iff.mp hocc with h1 | h2
            · obtain ⟨h3, h4⟩ := List.cons_prefix_cons.mp h1
              have h5 := sub_numdot_prefix_dotspace rest h4
              obtain ⟨t, ht⟩ := h5
              have hdw : rest.dropWhile Char.isDigit = rest := by
                rw [← ht]
                simp [List.dropWhile_cons]
              rw [hdw, ← ht] at h
              simp at h
            · exact ih rest hrestlen d hdig h2
  intro l
  exact main l.length l le_rfl

theorem mem_of_mem_takeWhile {p : Char → Bool} {a : Char} {l : List Char}
    (h : a ∈ l.takeWhile p) : a ∈ l := by
  have h2 := List.mem_append_left (l.dropWhile p) h
  rwa [List.takeWhile_append_dropWhile] at h2

theorem mem_of_mem_dropWhile {p : Char → Bool} {a : Char} {l : List Char}
    (h : a ∈ l.dropWhile p) : a ∈ l := by
  have h2 := List.mem_append_right (l.takeWhile p) h
  rwa [List.takeWhile_append_dropWhile] at h2

theorem sub_lead_dash_of_not {l : List Char} (h : ¬ (['-', ' '] <+: l)) :
    sub_lead_dash l = l := by
  unfold sub_lead_dash
  split
  · next rest => exact absurd ⟨rest, rfl⟩ h
  · rfl

theorem sub_lead_dash_not_lead {l : List Char} : ¬ (['-', ' '] <+: sub_lead_dash l) := by
  unfold sub_lead_dash
  split
  · intro hp
    obtain ⟨h1, _⟩ := List.cons_prefix_cons.mp hp
    exact absurd h1 (by decide)
  · next l2 hno =>
    intro hp
    obtain ⟨t, ht⟩ := hp
    exact hno t ht.symm

theorem sub_lead_dash_head_ne {l : List Char} (h : l.head? ≠ some ']') :
    (sub_lead_dash l).head? ≠ some ']' := by
  unfold sub_lead_dash
  split
  · simp
  · exact h

theorem sub_lead_dash_not_mem {l : List Char} {a : Char} (h : a ∉ l) (h2 : a ≠ '–') :
    a ∉ sub_lead_dash l := by
  unfold sub_lead_dash
  split
  · next rest =>
    intro hm
    rcases List.mem_cons.mp hm with h3 | h3
    · exact h2 h3
    · exact h (List.mem_cons.mpr (Or.inr h3))
  · exact h

theorem sub_lead_dash_ne_nil {l : List Char} (h : l ≠ []) : sub_lead_dash l ≠ [] := by
  unfold sub_lead_dash
  split
  · simp
  · exact h

theorem sub_lead_dash_numfree {l : List Char} (h : NoNumDot l) :
    NoNumDot (sub_lead_dash l) := by
  unfold sub_lead_dash
  split
  · next rest =>
    intro d hd hocc
    rcases List.infix_cons_iff.mp hocc with h1 | h2
    · obtain ⟨h3, _⟩ := List.cons_prefix_cons.mp h1
      rw [h3] at hd
      exact absurd hd (by decide)
    · rcases List.infix_cons_iff.mp h2 with h3 | h4
      · obtain ⟨h5, _⟩ := List.cons_prefix_cons.mp h3
        rw [h5] at hd
        exact absurd hd (by decide)
      · exact h d hd
          (List.infix_cons_iff.mpr (Or.inr (List.infix_cons_iff.mpr (Or.inr h4))))
  · exact h

theorem sub_numdot_ne_nil {l : List Char} (h : l ≠ []) : sub_numdot l ≠ [] := by
  cases l with
  | nil => exact absurd rfl h
  | cons c rest =>
    cases hd : c.isDigit with
    | true =>
      by_cases h2 : (rest.dropWhile Char.isDigit).take 2 = ['.', ' ']
      · rw [sub_numdot_cons_pos hd h2]
        simp
      · rw [sub_numdot_cons_neg hd h2]
        simp
    | false =>
      rw [sub_numdot_cons_nondigit hd]
      simp

theorem sub_numdot_not_mem {a : Char} (ha1 : a ≠ ':') (ha2 : a ≠ ' ') :
    ∀ l : List Char, a ∉ l → a ∉ sub_numdot l := by
  have main : ∀ n l, List.length l ≤ n → a ∉ l → a ∉ sub_numdot l := by
    intro n
    induction n with
    | zero =>
      intro l hl _
      have h0 : l = [] := List.length_eq_zero.mp (Nat.le_zero.mp hl)
      rw [h0, sub_numdot_nil]
      simp
    | succ n ih =>
      intro l hl hmem
      cases l with
      | nil => rw [sub_numdot_nil]; simp
      | cons c rest =>
        have hrestlen : rest.length ≤ n := by
          simp only [List.length_cons] at hl
          omega
        have hmc : a ≠ c := fun he => hmem (he ▸ List.mem_cons_self c rest)
        have hmr : a ∉ rest := fun he => hmem (List.mem_cons.mpr (Or.inr he))
        cases hd : c.isDigit with
        | false =>
          rw [sub_numdot_cons_nondigit hd]
          intro hm
          rcases List.mem_cons.mp hm with h1 | h1
          · exact hmc h1
          · exact ih rest hrestlen hmr h1
        | true =>
          by_cases h2 : (rest.dropWhile Char.isDigit).take 2 = ['.', ' ']
          · rw [sub_numdot_cons_pos hd h2]
            intro hm
            have hr2len : ((rest.dropWhile Char.isDigit).drop 2).length ≤ n := by
              have h6 := (@List.dropWhile_suffix Char rest Char.isDigit).length_le
              simp only [List.length_drop]
              omega
            have hr2mem : a ∉ (rest.dropWhile Char.isDigit).drop 2 := fun he =>
              hmr (mem_of_mem_dropWhile (List.mem_of_mem_drop he))
            rcases List.mem_append.mp hm with h3 | h3
            · rcases List.mem_cons.mp h3 with h4 | h4
              · exact hmc h4
              · exact hmr (mem_of_mem_takeWhile h4)
            · rcases List.mem_cons.mp h3 with h4 | h4
              · exact ha1 h4
              · rcases List.mem_cons.mp h4 with h5 | h5
                · exact ha2 h5
                · exact ih _ hr2len hr2mem h5
          · rw [sub_numdot_cons_neg hd h2]
            intro hm
            rcases List.mem_cons.mp hm with h1 | h1
            · exact hmc h1
            · exact ih rest hrestlen hmr h1
  intro l
  exact main l.length l le_rfl

theorem replaceAll_not_mem {pat rep : List Char} (hne : pat ≠ []) {a : Char}
    (hra : a ∉ rep) : ∀ l, a ∉ l → a ∉ replaceAll pat rep l := by
  have main : ∀ n l, List.length l ≤ n → a ∉ l → a ∉ replaceAll pat rep l := by
    intro n
    induction n with
    | zero =>
      intro l hl _
      have h0 : l = [] := List.length_eq_zero.mp (Nat.le_zero.mp hl)
      rw [h0, replaceAll_nil]
      simp
    | succ n ih =>
      intro l hl hmem
      cases l with
      | nil => rw [replaceAll_nil]; simp
      | cons c rest =>
        cases hpre : pat.isPrefixOf (c :: rest) with
        | true =>
          rw [replaceAll_cons_pos rep hne hpre]
          intro hm
          rcases List.mem_append.mp hm with h1 | h1
          · exact hra h1
          · have hlen : ((c :: rest).drop pat.length).length ≤ n := by
              simp only [List.length_drop, List.length_cons]
              simp only [List.length_cons] at hl
              have hp1 : 1 ≤ pat.length := by
                cases pat with
                | nil => exact absurd rfl hne
                | cons _ _ => simp
              omega
            exact ih _ hlen (fun he => hmem (List.mem_of_mem_drop he)) h1
        | false =>
          rw [replaceAll_cons_neg rep hne hpre]
          intro hm
          rcases List.mem_cons.mp hm with h1 | h1
          · exact hmem (h1 ▸ List.mem_cons_self c rest)
          · have hlen : rest.length ≤ n := by
              simp only [List.length_cons] at hl
              omega
            exact ih rest hlen (fun he => hmem (List.mem_cons.mpr (Or.inr he))) h1
  intro l
  exact main l.length l le_rfl

theorem replaceAll_numfree {pat rep : List Char} (hne : pat ≠ []) (hrep : rep ≠ [])
    (h1 : ∀ c ∈ rep, c.isDigit = false) (h2 : ('.' : Char) ∉ rep)
    (h3 : rep.head? ≠ some ' ') {l : List Char}
    (h : NoNumDot l) : NoNumDot (replaceAll pat rep l) := by
  intro d hd
  obtain ⟨r, rs, hr⟩ := List.exists_cons_of_ne_nil hrep
  subst hr
  refine replaceAll_preserves_no_match hne ?_ ?_ ?_ l (h d hd)
  · intro k hk
    simp only [List.length_cons, List.length_nil] at hk
    interval_cases k
    · constructor
      · intro hp
        have hh := (List.cons_prefix_cons.mp hp).1
        exact absurd (h1 r (List.mem_cons_self r rs)) (by rw [← hh, hd]; simp)
      · intro hp
        have hh := (List.cons_prefix_cons.mp hp).1
        exact absurd (h1 r (List.mem_cons_self r rs)) (by rw [hh, hd]; simp)
    · constructor
      · intro hp
        have hh := (List.cons_prefix_cons.mp hp).1
        exact h2 (hh ▸ List.mem_cons_self r rs)
      · intro hp
        have hh := (List.cons_prefix_cons.mp hp).1
        exact h2 (hh ▸ List.mem_cons_self r rs)
    · constructor
      · intro hp
        have hh := (List.cons_prefix_cons.mp hp).1
        exact h3 (by rw [List.head?_cons, ← hh])
      · intro hp
        have hh := (List.cons_prefix_cons.mp hp).1
        exact h3 (by rw [List.head?_cons, hh])
  · intro k hk hp
    have hne2 : (r :: rs).drop k ≠ [] := by
      intro h0
      have h4 := congrArg List.length h0
      simp only [List.length_drop, List.length_nil] at h4
      omega
    obtain ⟨x, xs, hx⟩ := List.exists_cons_of_ne_nil hne2
    rw [hx] at hp
    have hh := (List.cons_prefix_cons.mp hp).1
    have hxm : x ∈ (r :: rs) := by
      have h5 := (List.drop_suffix k (r :: rs)).subset
      apply h5
      rw [hx]
      exact List.mem_cons_self x xs
    rw [hh] at hxm
    exact absurd (h1 d hxm) (by rw [hd]; simp)
  · intro hi
    exact h2 (hi.subset (by simp))

theorem replaceAll_not_lead_dash {pat rep : List Char} (hne : pat ≠ []) (hrep : rep ≠ [])
    (h1 : rep.head? ≠ some '-') (h2 : rep.head? ≠ some ' ') :
    ∀ l, ¬ (['-', ' '] <+: l) → ¬ (['-', ' '] <+: replaceAll pat rep l) := by
  intro l hl
  obtain ⟨r, rs, hr⟩ := List.exists_cons_of_ne_nil hrep
  cases l with
  | nil => rw [replaceAll_nil]; exact hl
  | cons c rest =>
    cases hpre : pat.isPrefixOf (c :: rest) with
    | true =>
      rw [replaceAll_cons_pos rep hne hpre]
      intro hp
      rcases prefix_append_cases hp with h3 | ⟨h3, _⟩
      · rw [hr] at h3
        have hh := (List.cons_prefix_cons.mp h3).1
        exact h1 (by rw [hr, List.head?_cons, ← hh])
      · rw [hr] at h3
        have hh := (List.cons_prefix_cons.mp h3).1
        exact h1 (by rw [hr, List.head?_cons, hh])
    | false =>
      rw [replaceAll_cons_neg rep hne hpre]
      intro hp
      obtain ⟨hc, hp2⟩ := List.cons_prefix_cons.mp hp
      rcases replaceAll_head? hne hrep rest with h3 | h3
      · cases hout : replaceAll pat rep rest with
        | nil =>
          rw [hout, List.prefix_nil] at hp2
          exact absurd hp2 (by simp)
        | cons g out2 =>
          rw [hout] at hp2 h3
          have hg := (List.cons_prefix_cons.mp hp2).1
          simp only [List.head?_cons] at h3
          cases hrest : rest with
          | nil =>
            rw [hrest] at h3
            simp at h3
          | cons e rest2 =>
            rw [hrest] at h3
            simp only [List.head?_cons, Option.some.injEq] at h3
            apply hl
            rw [hrest, List.cons_prefix_cons]
            refine ⟨hc, ?_⟩
            rw [List.cons_prefix_cons]
            exact ⟨hg.trans h3, List.nil_prefix⟩
      · cases hout : replaceAll pat rep rest with
        | nil =>
          rw [hout, List.prefix_nil] at hp2
          exact absurd hp2 (by simp)
        | cons g out2 =>
          rw [hout] at hp2
          have hg := (List.cons_prefix_cons.mp hp2).1
          rw [hout] at h3
          simp only [List.head?_cons] at h3
          exact h2 (by rw [← h3, ← hg])

theorem replaceAll_head_ne {pat rep : List Char} (hne : pat ≠ []) (hrep : rep ≠ [])
    (h1 : rep.head? ≠ some ']') {l : List Char} (h : l.head? ≠ some ']') :
    (replaceAll pat rep l).head? ≠ some ']' := by
  rcases replaceAll_head? hne hrep l with h2 | h2 <;> rw [h2] <;> assumption

theorem sanitize_label_numfree (l : List Char) : NoNumDot (sanitize_label l) := by
  unfold sanitize_label replace_br replace_br_slash sub_nl_dash
  apply replaceAll_numfree (by decide) (by decide) (by decide) (by decide) (by decide)
  apply replaceAll_numfree (by decide) (by decide) (by decide) (by decide) (by decide)
  apply replaceAll_numfree (by decide) (by decide) (by decide) (by decide) (by decide)
  exact sub_lead_dash_numfree (sub_numdot_free l)

theorem sanitize_label_not_lead (l : List Char) : ¬ (['-', ' '] <+: sanitize_label l) := by
  unfold sanitize_label replace_br replace_br_slash sub_nl_dash
  apply replaceAll_not_lead_dash (by decide) (by decide) (by decide) (by decide)
  apply replaceAll_not_lead_dash (by decide) (by decide) (by decide) (by decide)
  apply replaceAll_not_lead_dash (by decide) (by decide) (by decide) (by decide)
  exact sub_lead_dash_not_lead

theorem sanitize_label_nlfree (l : List Char) :
    ¬ (['\n', '-', ' '] <:+: sanitize_label l) := by
  unfold sanitize_label replace_br replace_br_slash sub_nl_dash
  apply replaceAll_preserves_no_match (by decide) (by decide) (by decide) (by decide)
  apply replaceAll_preserves_no_match (by decide) (by decide) (by decide) (by decide)
  exact replaceAll_not_infix_self (by decide) (by decide) (by decide) (by decide) _

theorem sanitize_label_brsfree (l : List Char) :
    ¬ ((("<br/>").data) <:+: sanitize_label l) := by
  unfold sanitize_label replace_br replace_br_slash
  apply replaceAll_preserves_no_match (by decide) (by decide) (by decide) (by decide)
  exact replaceAll_not_infix_self (by decide) (by decide) (by decide) (by decide) _

theorem sanitize_label_brfree (l : List Char) :
    ¬ ((("<br>").data) <:+: sanitize_label l) := by
  unfold sanitize_label replace_br
  exact replaceAll_not_infix_self (by decide) (by decide) (by decide) (by decide) _

theorem sanitize_label_not_mem_quote {l : List Char} (h : ('"' : Char) ∉ l) :
    ('"' : Char) ∉ sanitize_label l := by
  unfold sanitize_label replace_br replace_br_slash sub_nl_dash
  apply replaceAll_not_mem (by decide) (by decide)
  apply replaceAll_not_mem (by decide) (by decide)
  apply replaceAll_not_mem (by decide) (by decide)
  apply sub_lead_dash_not_mem ?_ (by decide)
  exact sub_numdot_not_mem (by decide) (by decide) l h

theorem sanitize_label_ne_nil {l : List Char} (h : l ≠ []) : sanitize_label l ≠ [] := by
  unfold sanitize_label replace_br replace_br_slash sub_nl_dash
  apply replaceAll_ne_nil (by decide) (by decide)
  apply replaceAll_ne_nil (by decide) (by decide)
  apply replaceAll_ne_nil (by decide) (by decide)
  exact sub_lead_dash_ne_nil (sub_numdot_ne_nil h)

theorem sanitize_label_head_ne {l : List Char} (h : l.head? ≠ some ']') :
    (sanitize_label l).head? ≠ some ']' := by
  unfold sanitize_label replace_br replace_br_slash sub_nl_dash
  apply replaceAll_head_ne (by decide) (by decide) (by decide)
  apply replaceAll_head_ne (by decide) (by decide) (by decide)
  apply replaceAll_head_ne (by decide) (by decide) (by decide)
  apply sub_lead_dash_head_ne
  rw [sub_numdot_head?]
  exact h

theorem sanitize_label_idem (l : List Char) :
    sanitize_label (sanitize_label l) = sanitize_label l := by
  have e1 : sub_numdot (sanitize_label l) = sanitize_label l :=
    sub_numdot_id (sanitize_label_numfree l)
  have e2 : sub_lead_dash (sanitize_label l) = sanitize_label l :=
    sub_lead_dash_of_not (sanitize_label_not_lead l)
  have e3 : sub_nl_dash (sanitize_label l) = sanitize_label l := by
    unfold sub_nl_dash
    exact replaceAll_id_of_no_match (by decide) (sanitize_label_nlfree l)
  have e4 : replace_br_slash (sanitize_label l) = sanitize_label l := by
    unfold replace_br_slash
    exact replaceAll_id_of_no_match (by decide) (sanitize_label_brsfree l)
  have e5 : replace_br (sanitize_label l) = sanitize_label l := by
    unfold replace_br
    exact replaceAll_id_of_no_match (by decide) (sanitize_label_brfree l)
  show replace_br (replace_br_slash (sub_nl_dash (sub_lead_dash
    (sub_numdot (sanitize_label l))))) = sanitize_label l
  rw [e1, e2, e3, e4, e5]

theorem san_nil : sanitize_markdown_in_labels [] = [] := by
  simp [sanitize_markdown_in_labels]

theorem san_match {rest : List Char}
    (h1 : (rest.dropWhile (fun c => c != '"')).take 2 = ['"', ']'])
    (h2 : rest.takeWhile (fun c => c != '"') ≠ []) :
    sanitize_markdown_in_labels ('[' :: '"' :: rest) =
      '[' :: '"' :: (sanitize_label (rest.takeWhile (fun c => c != '"')) ++ '"' :: ']' ::
        sanitize_markdown_in_labels ((rest.dropWhile (fun c => c != '"')).drop 2)) := by
  simp only [sanitize_markdown_in_labels]
  rw [if_pos ⟨h1, h2⟩]

theorem san_fail {rest : List Char}
    (h : ¬ ((rest.dropWhile (fun c => c != '"')).take 2 = ['"', ']'] ∧
      rest.takeWhile (fun c => c != '"') ≠ [])) :
    sanitize_markdown_in_labels ('[' :: '"' :: rest) =
      '[' :: '"' :: sanitize_markdown_in_labels rest := by
  simp only [sanitize_markdown_in_labels]
  rw [if_neg h]

theorem san_other {c : Char} {rest : List Char} (h : ¬ (c = '[' ∧ rest.head? = some '"')) :
    sanitize_markdown_in_labels (c :: rest) = c :: sanitize_markdown_in_labels rest := by
  rw [sanitize_markdown_in_labels.eq_def]
  split
  · next _ heq => exact absurd heq (List.cons_ne_nil c rest)
  · next rest2 heq =>
    obtain ⟨hc, hr⟩ := List.cons.inj heq
    exact absurd ⟨hc, by rw [hr]; rfl⟩ h
  · next _ c2 rest2 _ heq =>
    obtain ⟨hc, hr⟩ := List.cons.inj heq
    rw [hc, hr]

theorem takeWhile_append_all {p : Char → Bool} {u v : List Char} (h : ∀ x ∈ u, p x = true) :
    (u ++ v).takeWhile p = u ++ v.takeWhile p := by
  induction u with
  | nil => simp
  | cons c u' ih =>
    have hc := h c (List.mem_cons_self c u')
    simp only [List.cons_append, List.takeWhile_cons, hc, if_true]
    rw [ih (fun x hx => h x (List.mem_cons.mpr (Or.inr hx)))]

theorem dropWhile_append_all {p : Char → Bool} {u v : List Char} (h : ∀ x ∈ u, p x = true) :
    (u ++ v).dropWhile p = v.dropWhile p := by
  induction u with
  | nil => simp
  | cons c u' ih =>
    have hc := h c (List.mem_cons_self c u')
    simp only [List.cons_append, List.dropWhile_cons, hc, if_true]
    exact ih (fun x hx => h x (List.mem_cons.mpr (Or.inr hx)))

theorem takeWhile_head? {p : Char → Bool} {l : List Char} {m : Char}
    (h : (l.takeWhile p).head? = some m) : l.head? = some m := by
  cases l with
  | nil => simp at h
  | cons c rest =>
    rw [List.takeWhile_cons] at h
    split at h
    · simpa using h
    · simp at h

theorem dropWhile_head_false {p : Char → Bool} {d : Char} {e : List Char} :
    ∀ {l : List Char}, l.dropWhile p = d :: e → p d = false := by
  intro l
  induction l with
  | nil => intro h; simp at h
  | cons c r ih =>
    intro h
    rw [List.dropWhile_cons] at h
    split at h
    · exact ih h
    · next hp =>
      obtain ⟨h1, _⟩ := List.cons.inj h
      rw [← h1]
      simpa using hp

theorem take2_quote_head {X : List Char} (hX : X.head? ≠ some ']') :
    ('"' :: X).take 2 ≠ ['"', ']'] := by
  cases X with
  | nil => simp
  | cons x xs =>
    intro hx
    obtain ⟨_, h2⟩ := List.cons.inj hx
    obtain ⟨h3, _⟩ := List.cons.inj h2
    exact hX (by simp [h3])

theorem dropWhile_gap_quote {t' : List Char} {dl : Char}
    (hq : ∀ x ∈ t' ++ [dl], (x != '"') = true) (X : List Char) :
    (t' ++ dl :: '"' :: X).dropWhile (fun c => c != '"') = '"' :: X := by
  have h1 : t' ++ dl :: '"' :: X = (t' ++ [dl]) ++ '"' :: X := by simp
  rw [h1, dropWhile_append_all hq, List.dropWhile_cons]
  simp

theorem takeWhile_gap_quote {t' : List Char} {dl : Char}
    (hq : ∀ x ∈ t' ++ [dl], (x != '"') = true) (X : List Char) :
    (t' ++ dl :: '"' :: X).takeWhile (fun c => c != '"') = t' ++ [dl] := by
  have h1 : t' ++ dl :: '"' :: X = (t' ++ [dl]) ++ '"' :: X := by simp
  rw [h1, takeWhile_append_all hq, List.takeWhile_cons]
  simp

theorem san_head? : ∀ l : List Char, (sanitize_markdown_in_labels l).head? = l.head? := by
  intro l
  cases l with
  | nil => rw [san_nil]
  | cons c rest =>
    by_cases h : c = '[' ∧ rest.head? = some '"'
    · obtain ⟨hc, hr⟩ := h
      subst hc
      obtain ⟨rest2, hrest2⟩ : ∃ rest2, rest = '"' :: rest2 := by
        cases rest with
        | nil => simp at hr
        | cons d r =>
          simp only [List.head?_cons, Option.some.injEq] at hr
          exact ⟨r, by rw [hr]⟩
      subst hrest2
      by_cases h2 : ((rest2.dropWhile (fun c => c != '"')).take 2 = ['"', ']'] ∧
          rest2.takeWhile (fun c => c != '"') ≠ [])
      · rw [san_match h2.1 h2.2]
        rfl
      · rw [san_fail h2]
        rfl
    · rw [san_other h]
      rfl

theorem san_no_quote_id : ∀ l : List Char, ('"' : Char) ∉ l →
    sanitize_markdown_in_labels l = l := by
  intro l
  induction l with
  | nil => intro _; exact san_nil
  | cons c rest ih =>
    intro h
    have hcond : ¬ (c = '[' ∧ rest.head? = some '"') := by
      rintro ⟨_, hr⟩
      cases rest with
      | nil => simp at hr
      | cons d r =>
        simp only [List.head?_cons, Option.some.injEq] at hr
        exact h (by rw [← hr]; exact List.mem_cons.mpr (Or.inr (List.mem_cons_self d r)))
    rw [san_other hcond, ih (fun hm => h (List.mem_cons.mpr (Or.inr hm)))]

theorem san_append_no_quote {a : List Char} (ha : ('"' : Char) ∉ a) {b : List Char}
    (hb : b.head? ≠ some '"') :
    sanitize_markdown_in_labels (a ++ b) = a ++ sanitize_markdown_in_labels b := by
  induction a with
  | nil => simp
  | cons c a' ih =>
    have hcond : ¬ (c = '[' ∧ (a' ++ b).head? = some '"') := by
      rintro ⟨_, hr⟩
      cases a' with
      | nil =>
        rw [List.nil_append] at hr
        exact hb hr
      | cons d r =>
        simp only [List.cons_append, List.head?_cons, Option.some.injEq] at hr
        exact ha (by rw [← hr]; exact List.mem_cons.mpr (Or.inr (List.mem_cons_self d r)))
    rw [List.cons_append, san_other hcond,
      ih (fun hm => ha (List.mem_cons.mpr (Or.inr hm)))]
    rfl

theorem san_cond_not {rest : List Char}
    (h : ¬ ((rest.dropWhile (fun c => c != '"')).take 2 = ['"', ']'] ∧
      rest.takeWhile (fun c => c != '"') ≠ [])) :
    ¬ (((sanitize_markdown_in_labels rest).dropWhile (fun c => c != '"')).take 2 =
        ['"', ']'] ∧
      (sanitize_markdown_in_labels rest).takeWhile (fun c => c != '"') ≠ []) := by
  by_cases ht : rest.takeWhile (fun c => c != '"') = []
  · cases rest with
    | nil =>
      rw [san_nil]
      rintro ⟨_, h2⟩
      exact h2 rfl
    | cons c r =>
      have hc : c = '"' := by
        rw [List.takeWhile_cons] at ht
        split at ht
        · exact absurd ht (List.cons_ne_nil _ _)
        · next hp => simpa using hp
      rintro ⟨_, h2⟩
      apply h2
      have hh := san_head? (c :: r)
      cases hout : sanitize_markdown_in_labels (c :: r) with
      | nil => rfl
      | cons g out =>
        rw [hout] at hh
        simp only [List.head?_cons, Option.some.injEq] at hh
        rw [List.takeWhile_cons, hh, hc]
        simp
  · have htk : (rest.dropWhile (fun c => c != '"')).take 2 ≠ ['"', ']'] :=
      fun hx => h ⟨hx, ht⟩
    cases hdw : rest.dropWhile (fun c => c != '"') with
    | nil =>
      have hnq : ('"' : Char) ∉ rest := by
        intro hm
        have hdec := List.takeWhile_append_dropWhile (fun c => c != '"') rest
        rw [hdw, List.append_nil] at hdec
        rw [← hdec] at hm
        have h5 := List.mem_takeWhile_imp hm
        simp at h5
      rw [san_no_quote_id rest hnq]
      exact h
    | cons d e0 =>
      have hd : d = '"' := by
        have h5 := dropWhile_head_false hdw
        simpa using h5
      subst hd
      have he : e0.head? ≠ some ']' := by
        intro hx
        apply htk
        rw [hdw]
        cases e0 with
        | nil => simp at hx
        | cons x xs =>
          simp only [List.head?_cons, Option.some.injEq] at hx
          rw [hx]
          rfl
      obtain ⟨t', dlast, hsplit⟩ : ∃ t' dlast,
          rest.takeWhile (fun c => c != '"') = t' ++ [dlast] :=
        ⟨_, _, (List.dropLast_append_getLast ht).symm⟩
      have hrest : rest = t' ++ dlast :: '"' :: e0 := by
        have hdec := (List.takeWhile_append_dropWhile (fun c => c != '"') rest).symm
        rw [hsplit, hdw] at hdec
        rw [hdec]
        simp
      have hqt : ∀ x ∈ t' ++ [dlast], (x != '"') = true := by
        intro x hx
        rw [← hsplit] at hx
        have h9 := List.mem_takeWhile_imp hx
        simpa using h9
      have ht'q : ('"' : Char) ∉ t' := by
        intro hm
        have h5 := hqt '"' (List.mem_append_left _ hm)
        simp at h5
      have hdlq : dlast ≠ '"' := by
        have h5 := hqt dlast (List.mem_append_right _ (List.mem_cons_self _ _))
        simpa using h5
      by_cases hdl : dlast = '['
      · subst hdl
        rw [hrest, san_append_no_quote ht'q (by simp)]
        by_cases hce : ((e0.dropWhile (fun c => c != '"')).take 2 = ['"', ']'] ∧
            e0.takeWhile (fun c => c != '"') ≠ [])
        · rw [san_match hce.1 hce.2]
          rintro ⟨hA, _⟩
          rw [dropWhile_gap_quote hqt] at hA
          have hBIGh : (sanitize_label (e0.takeWhile (fun c => c != '"')) ++ '"' :: ']' ::
              sanitize_markdown_in_labels ((e0.dropWhile (fun c => c != '"')).drop 2)).head? ≠
              some ']' := by
            obtain ⟨m, ms, hm⟩ := List.exists_cons_of_ne_nil (sanitize_label_ne_nil hce.2)
            rw [hm, List.cons_append, List.head?_cons]
            intro hx
            simp only [Option.some.injEq] at hx
            apply sanitize_label_head_ne (fun hy => he (takeWhile_head? hy))
            rw [hm, List.head?_cons, hx]
          exact take2_quote_head hBIGh hA
        · rw [san_fail hce]
          rintro ⟨hA, _⟩
          rw [dropWhile_gap_quote hqt] at hA
          have hSh : (sanitize_markdown_in_labels e0).head? ≠ some ']' := by
            rw [san_head? e0]
            exact he
          exact take2_quote_head hSh hA
      · rw [hrest, san_append_no_quote ht'q (by simp [hdlq]),
          san_other (show ¬ (dlast = '[' ∧ ('"' :: e0).head? = some '"') from
            by rintro ⟨h1, _⟩; exact hdl h1),
          san_other (show ¬ (('"' : Char) = '[' ∧ e0.head? = some '"') from
            by rintro ⟨h1, _⟩; exact absurd h1 (by decide))]
        rintro ⟨hA, _⟩
        rw [dropWhile_gap_quote hqt] at hA
        have hSh : (sanitize_markdown_in_labels e0).head? ≠ some ']' := by
          rw [san_head? e0]
          exact he
        exact take2_quote_head hSh hA

theorem san_idem : ∀ l : List Char,
    sanitize_markdown_in_labels (sanitize_markdown_in_labels l) =
      sanitize_markdown_in_labels l := by
  have main : ∀ n l, List.length l ≤ n →
      sanitize_markdown_in_labels (sanitize_markdown_in_labels l) =
        sanitize_markdown_in_labels l := by
    intro n
    induction n with
    | zero =>
      intro l hl
      have h0 : l = [] := List.length_eq_zero.mp (Nat.le_zero.mp hl)
      rw [h0, san_nil, san_nil]
    | succ n ih =>
      intro l hl
      cases l with
      | nil => rw [san_nil, san_nil]
      | cons c rest0 =>
        by_cases hshape : c = '[' ∧ rest0.head? = some '"'
        · obtain ⟨hc, hr⟩ := hshape
          subst hc
          obtain ⟨rest, hrest⟩ : ∃ rest, rest0 = '"' :: rest := by
            cases rest0 with
            | nil => simp at hr
            | cons d r =>
              simp only [List.head?_cons, Option.some.injEq] at hr
              exact ⟨r, by rw [hr]⟩
          subst hrest
          by_cases hcond : ((rest.dropWhile (fun c => c != '"')).take 2 = ['"', ']'] ∧
              rest.takeWhile (fun c => c != '"') ≠ [])
          · rw [san_match hcond.1 hcond.2]
            have hlblnq : ('"' : Char) ∉ rest.takeWhile (fun c => c != '"') := by
              intro hm
              have h9 := List.mem_takeWhile_imp hm
              simp at h9
            have hL'nq : ('"' : Char) ∉ sanitize_label (rest.takeWhile (fun c => c != '"')) :=
              sanitize_label_not_mem_quote hlblnq
            have hL'q : ∀ x ∈ sanitize_label (rest.takeWhile (fun c => c != '"')),
                (x != '"') = true := by
              intro x hx
              simp only [bne_iff_ne, ne_eq]
              intro hxx
              rw [hxx] at hx
              exact hL'nq hx
            have hL'ne : sanitize_label (rest.takeWhile (fun c => c != '"')) ≠ [] :=
              sanitize_label_ne_nil hcond.2
            have htw : (sanitize_label (rest.takeWhile (fun c => c != '"')) ++ '"' :: ']' ::
                sanitize_markdown_in_labels
                  ((rest.dropWhile (fun c => c != '"')).drop 2)).takeWhile
                  (fun c => c != '"') =
                sanitize_label (rest.takeWhile (fun c => c != '"')) := by
              rw [takeWhile_append_all hL'q, List.takeWhile_cons]
              simp
            have hdw : (sanitize_label (rest.takeWhile (fun c => c != '"')) ++ '"' :: ']' ::
                sanitize_markdown_in_labels
                  ((rest.dropWhile (fun c => c != '"')).drop 2)).dropWhile
                  (fun c => c != '"') =
                '"' :: ']' :: sanitize_markdown_in_labels
                  ((rest.dropWhile (fun c => c != '"')).drop 2) := by
              rw [dropWhile_append_all hL'q, List.dropWhile_cons]
              simp
            rw [san_match (by rw [hdw]; rfl) (by rw [htw]; exact hL'ne)]
            rw [htw, hdw, sanitize_label_idem]
            have hr2len : ((rest.dropWhile (fun c => c != '"')).drop 2).length ≤ n := by
              have h6 := (@List.dropWhile_suffix Char rest (fun c => c != '"')).length_le
              simp only [List.length_cons] at hl
              simp only [List.length_drop]
              omega
            show '[' :: '"' :: (sanitize_label (rest.takeWhile (fun c => c != '"')) ++
              '"' :: ']' :: sanitize_markdown_in_labels (sanitize_markdown_in_labels
                ((rest.dropWhile (fun c => c != '"')).drop 2))) = _
            rw [ih _ hr2len]
          · rw [san_fail hcond, san_fail (san_cond_not hcond)]
            have hrestlen : rest.length ≤ n := by
              simp only [List.length_cons] at hl
              omega
            rw [ih rest hrestlen]
        · rw [san_other hshape]
          have hcond2 : ¬ (c = '[' ∧ (sanitize_markdown_in_labels rest0).head? = some '"') := by
            rw [san_head? rest0]
            exact hshape
          rw [san_other hcond2]
          have hrestlen : rest0.length ≤ n := by
            simp only [List.length_cons] at hl
            omega
          rw [ih rest0 hrestlen]
  intro l
  exact main l.length l le_rfl

theorem assemble_cons (f : List Char → List Char) (c : Char) (g0 : List Char)
    (ps : List (List Char × List Char)) :
    assemble f (c :: g0) ps = c :: assemble f g0 ps := by
  cases ps with
  | nil => rfl
  | cons p ps => rfl

theorem san_frame : ∀ l : List Char, ∃ g0 ps,
    l = assemble (fun x => x) g0 ps ∧
    sanitize_markdown_in_labels l = assemble sanitize_label g0 ps ∧
    ∀ p ∈ ps, p.1 ≠ [] ∧ ('"' : Char) ∉ p.1 := by
  have main : ∀ n l, List.length l ≤ n → ∃ g0 ps,
      l = assemble (fun x => x) g0 ps ∧
      sanitize_markdown_in_labels l = assemble sanitize_label g0 ps ∧
      ∀ p ∈ ps, p.1 ≠ [] ∧ ('"' : Char) ∉ p.1 := by
    intro n
    induction n with
    | zero =>
      intro l hl
      have h0 : l = [] := List.length_eq_zero.mp (Nat.le_zero.mp hl)
      exact ⟨[], [], by rw [h0]; rfl, by rw [h0, san_nil]; rfl, by simp⟩
    | succ n ih =>
      intro l hl
      cases l with
      | nil => exact ⟨[], [], rfl, by rw [san_nil]; rfl, by simp⟩
      | cons c rest0 =>
        by_cases hshape : c = '[' ∧ rest0.head? = some '"'
        · obtain ⟨hc, hr⟩ := hshape
          subst hc
          obtain ⟨rest, hrest⟩ : ∃ rest, rest0 = '"' :: rest := by
            cases rest0 with
            | nil => simp at hr
            | cons d r =>
              simp only [List.head?_cons, Option.some.injEq] at hr
              exact ⟨r, by rw [hr]⟩
          subst hrest
          by_cases hcond : ((rest.dropWhile (fun c => c != '"')).take 2 = ['"', ']'] ∧
              rest.takeWhile (fun c => c != '"') ≠ [])
          · have hr2len : ((rest.dropWhile (fun c => c != '"')).drop 2).length ≤ n := by
              have h6 := (@List.dropWhile_suffix Char rest (fun c => c != '"')).length_le
              simp only [List.length_cons] at hl
              simp only [List.length_drop]
              omega
            obtain ⟨g0', ps', he1, he2, he3⟩ := ih _ hr2len
            have hdwshape : rest.dropWhile (fun c => c != '"') =
                '"' :: ']' :: (rest.dropWhile (fun c => c != '"')).drop 2 := by
              conv_lhs => rw [← List.take_append_drop 2 (rest.dropWhile (fun c => c != '"'))]
              rw [hcond.1]
              rfl
            refine ⟨[], (rest.takeWhile (fun c => c != '"'), g0') :: ps', ?_, ?_, ?_⟩
            · show '[' :: '"' :: rest = '[' :: '"' :: (rest.takeWhile (fun c => c != '"') ++
                '"' :: ']' :: assemble (fun x => x) g0' ps')
              rw [← he1]
              conv_lhs =>
                rw [show rest =
                  rest.takeWhile (fun c => c != '"') ++ rest.dropWhile (fun c => c != '"') from
                  (List.takeWhile_append_dropWhile (fun c => c != '"') rest).symm]
                rw [hdwshape]
            · rw [san_match hcond.1 hcond.2]
              show '[' :: '"' :: (sanitize_label (rest.takeWhile (fun c => c != '"')) ++
                '"' :: ']' :: sanitize_markdown_in_labels
                  ((rest.dropWhile (fun c => c != '"')).drop 2)) =
                '[' :: '"' :: (sanitize_label (rest.takeWhile (fun c => c != '"')) ++
                '"' :: ']' :: assemble sanitize_label g0' ps')
              rw [he2]
            · intro p hp
              rcases List.mem_cons.mp hp with h1 | h1
              · rw [h1]
                refine ⟨hcond.2, ?_⟩
                intro hm
                have h9 := List.mem_takeWhile_imp hm
                simp at h9
              · exact he3 p h1
          · have hrestlen : rest.length ≤ n := by
              simp only [List.length_cons] at hl
              omega
            obtain ⟨g0', ps', he1, he2, he3⟩ := ih rest hrestlen
            refine ⟨'[' :: '"' :: g0', ps', ?_, ?_, he3⟩
            · rw [assemble_cons, assemble_cons, ← he1]
            · rw [san_fail hcond, assemble_cons, assemble_cons, ← he2]
        · have hrestlen : rest0.length ≤ n := by
            simp only [List.length_cons] at hl
            omega
          obtain ⟨g0', ps', he1, he2, he3⟩ := ih rest0 hrestlen
          refine ⟨c :: g0', ps', ?_, ?_, he3⟩
          · rw [assemble_cons, ← he1]
          · rw [san_other hshape, assemble_cons, ← he2]
  intro l
  exact main l.length l le_rfl

theorem dropWhile_append_general {p : Char → Bool} {u v : List Char}
    (hv : ∀ m, v.head? = some m → p m = false) :
    (u ++ v).dropWhile p = u.dropWhile p ++ v := by
  induction u with
  | nil =>
    simp only [List.nil_append, List.dropWhile_nil]
    cases v with
    | nil => rfl
    | cons m vs =>
      rw [List.dropWhile_cons, hv m rfl]
      simp
  | cons c u' ih =>
    rw [List.cons_append, List.dropWhile_cons, List.dropWhile_cons]
    cases hp : p c with
    | true => simpa using ih
    | false => simp

theorem suffix_append_cases {s x y : List Char} (h : s <:+ x ++ y) :
    s <:+ y ∨ ∃ x', x' <:+ x ∧ x' ≠ [] ∧ s = x' ++ y := by
  by_cases hl : s.length ≤ y.length
  · exact Or.inl (suffix_of_suffix_append h hl)
  · push_neg at hl
    right
    have hslen := h.length_le
    rw [List.length_append] at hslen
    have heq := List.suffix_iff_eq_drop.mp h
    rw [List.length_append, List.drop_append_eq_append_drop] at heq
    have h6 : x.length + y.length - s.length - x.length = 0 := by omega
    rw [h6, List.drop_zero] at heq
    refine ⟨x.drop (x.length + y.length - s.length), List.drop_suffix _ _, ?_, heq⟩
    intro hc
    have h7 := congrArg List.length hc
    simp only [List.length_drop, List.length_nil] at h7
    omega

theorem fenceBody_suffix (r : List Char) : fenceBody r <:+ r := by
  unfold fenceBody
  split
  · next rest heq =>
    have h1 : rest <:+ r.dropWhile isWordChar := ⟨['\n'], heq.symm⟩
    exact h1.trans (List.dropWhile_suffix isWordChar)
  · exact List.suffix_refl r

theorem splitAtTriple_none {l : List Char} (h : ¬ (['\x60', '\x60', '\x60'] <:+: l)) :
    splitAtTriple l = none := by
  induction l with
  | nil => rfl
  | cons c rest ih =>
    unfold splitAtTriple
    rw [if_neg, ih]
    · rfl
    · intro hi
      exact h (List.infix_cons_iff.mpr (Or.inr hi))
    · intro hp
      exact h ( List.isPrefixOf_iff_prefix.mp hp).isInfix

theorem splitAtTriple_clean {B : List Char} (hB : ('\x60' : Char) ∉ B) (b : List Char) :
    splitAtTriple (B ++ '\x60' :: '\x60' :: '\x60' :: b) = some B := by
  induction B with
  | nil => simp +decide [splitAtTriple]
  | cons c B' ih =>
    show (if ['\x60', '\x60', '\x60'].isPrefixOf (c :: (B' ++ '\x60' :: '\x60' :: '\x60' :: b)) =
        true then some []
      else (splitAtTriple (B' ++ '\x60' :: '\x60' :: '\x60' :: b)).map (fun s => c :: s)) =
      some (c :: B')
    rw [if_neg, ih (fun hm => hB (List.mem_cons.mpr (Or.inr hm)))]
    · rfl
    · intro hp
      have h1 := List.isPrefixOf_iff_prefix.mp hp
      have h2 := (List.cons_prefix_cons.mp h1).1
      apply hB
      rw [← h2]
      exact List.mem_cons_self _ _

theorem fenceBody_append_fence {body b : List Char} :
    fenceBody (body ++ '\x60' :: '\x60' :: '\x60' :: b) =
      fenceBody body ++ '\x60' :: '\x60' :: '\x60' :: b := by
  have hL : (body ++ '\x60' :: '\x60' :: '\x60' :: b).dropWhile isWordChar =
      body.dropWhile isWordChar ++ '\x60' :: '\x60' :: '\x60' :: b := by
    apply dropWhile_append_general
    intro m hm
    simp only [List.head?_cons, Option.some.injEq] at hm
    rw [← hm]
    decide
  unfold fenceBody
  rw [hL]
  cases hdw : body.dropWhile isWordChar with
  | nil =>
    rw [List.nil_append]
    rfl
  | cons d rest =>
    by_cases hd : d = '\n'
    · subst hd
      rfl
    · rw [List.cons_append]
      split
      · next rest2 heq =>
        obtain ⟨h1, _⟩ := List.cons.inj heq
        exact absurd h1 hd
      · split
        · next rest2 heq =>
          obtain ⟨h1, _⟩ := List.cons.inj heq
          exact absurd h1 hd
        · rfl

theorem tryFence_clean {body : List Char} (hbody : ('\x60' : Char) ∉ body) (b : List Char) :
    tryFence ('\x60' :: '\x60' :: '\x60' :: (body ++ '\x60' :: '\x60' :: '\x60' :: b)) =
      some (fenceBody body) := by
  unfold tryFence
  rw [if_pos ( List.isPrefixOf_iff_prefix.mpr (List.cons_prefix_cons.mpr ⟨rfl,
    List.cons_prefix_cons.mpr ⟨rfl, List.cons_prefix_cons.mpr ⟨rfl, List.nil_prefix⟩⟩⟩))]
  show splitAtTriple (fenceBody (body ++ '\x60' :: '\x60' :: '\x60' :: b)) = _
  rw [fenceBody_append_fence]
  exact splitAtTriple_clean (fun hm => hbody ((fenceBody_suffix body).subset hm)) b

theorem tryFence_none_cond {s b : List Char} (hb : ¬ (['\x60', '\x60', '\x60'] <:+: b))
    (hd : s.drop 3 <:+ b) : tryFence s = none := by
  unfold tryFence
  split
  · apply splitAtTriple_none
    intro hi
    exact hb (hi.trans ((fenceBody_suffix (s.drop 3)).isInfix.trans hd.isInfix))
  · rfl

theorem firstFence_cons_none {c : Char} {rest : List Char} (h : tryFence (c :: rest) = none) :
    firstFence (c :: rest) = firstFence rest := by
  conv_lhs => unfold firstFence
  rw [h]

theorem firstFence_all_none : ∀ l : List Char,
    (∀ s, s <:+ l → tryFence s = none) → firstFence l = none := by
  intro l
  induction l with
  | nil => intro _; rfl
  | cons c rest ih =>
    intro h
    rw [firstFence_cons_none (h (c :: rest) (List.suffix_refl _))]
    exact ih (fun s hs => h s (hs.trans (List.suffix_cons c rest)))

theorem firstFence_append_no_tick {a : List Char} (ha : ('\x60' : Char) ∉ a) (b : List Char) :
    firstFence (a ++ b) = firstFence b := by
  induction a with
  | nil => rfl
  | cons c a' ih =>
    have htf : tryFence (c :: (a' ++ b)) = none := by
      unfold tryFence
      rw [if_neg]
      intro hp
      have h1 := List.isPrefixOf_iff_prefix.mp hp
      have h2 := (List.cons_prefix_cons.mp h1).1
      apply ha
      rw [← h2]
      exact List.mem_cons_self _ _
    rw [List.cons_append, firstFence_cons_none htf]
    exact ih (fun hm => ha (List.mem_cons.mpr (Or.inr hm)))

theorem containsSub_complete {pat l : List Char} (h : pat <:+: l) :
    containsSub pat l = true := by
  obtain ⟨s, t, hst⟩ := h
  subst hst
  induction s with
  | nil =>
    rw [List.nil_append]
    cases pat with
    | nil =>
      cases t with
      | nil => rfl
      | cons c t' => simp [containsSub]
    | cons p ps =>
      have h1 : (p :: ps).isPrefixOf ((p :: ps) ++ t) = true :=
        List.isPrefixOf_iff_prefix.mpr ⟨t, rfl⟩
      rw [show (p :: ps) ++ t = p :: (ps ++ t) from rfl]
      unfold containsSub
      rw [show (p :: ps).isPrefixOf (p :: (ps ++ t)) = true from h1]
      rfl
  | cons c s' ih =>
    rw [show ((c :: s') ++ pat ++ t) = c :: (s' ++ pat ++ t) from by simp]
    unfold containsSub
    rw [ih]
    simp

theorem hasPatWS_of {pat s t : List Char} {c : Char} (hc : pyIsSpace c = true) :
    hasPatWS pat (s ++ pat ++ c :: t) = true := by
  induction s with
  | nil =>
    rw [List.nil_append]
    cases pat with
    | nil =>
      unfold hasPatWS
      simp [headIs, hc]
    | cons p ps =>
      have h1 : (p :: ps).isPrefixOf ((p :: ps) ++ c :: t) = true :=
        List.isPrefixOf_iff_prefix.mpr ⟨c :: t, rfl⟩
      have h2 : ((p :: ps) ++ c :: t).drop (p :: ps).length = c :: t := List.drop_left _ _
      rw [show (p :: ps) ++ c :: t = p :: (ps ++ c :: t) from rfl]
      unfold hasPatWS
      rw [show (p :: ps).isPrefixOf (p :: (ps ++ c :: t)) = true from h1,
        show (p :: (ps ++ c :: t)).drop (p :: ps).length = c :: t from h2]
      simp [headIs, hc]
  | cons a s' ih =>
    rw [show ((a :: s') ++ pat ++ c :: t) = a :: (s' ++ pat ++ c :: t) from by simp]
    unfold hasPatWS
    rw [ih]
    simp

theorem infix_map_toLower {u l : List Char} (h : u <:+: l) :
    u.map Char.toLower <:+: l.map Char.toLower := by
  obtain ⟨s, t, hst⟩ := h
  exact ⟨s.map Char.toLower, t.map Char.toLower, by rw [← hst]; simp⟩

theorem firstFence_cons_some {c : Char} {rest cap : List Char}
    (h : tryFence (c :: rest) = some cap) : firstFence (c :: rest) = some cap := by
  conv_lhs => unfold firstFence
  rw [h]

/-- C1 (code_bug evidence): on a `generate_diagram` request whose extracted and
sanitized source fails the syntax heuristic, `handle_call_tool` returns the
warning TextContent at lines 261-267 and never reaches the `mmdc` invocation:
the pure prefix of the handler evaluates to `warningOnly`, not to
`renderAttempt`, although the warning text itself says "Attempting to generate
anyway...". This contradicts the claim (and spec) that rendering proceeds. -/
theorem c1_warning_path_returns_without_render :
    generate_diagram_pre (("just some plain text").data) (("out").data) =
      GenPhase1.warningOnly := by
  have h1 : extract_mermaid_code (("just some plain text").data) =
      (("just some plain text").data) := by decide
  have h2 : sanitize_markdown_in_labels (("just some plain text").data) =
      (("just some plain text").data) := by
    simp +decide [sanitize_markdown_in_labels]
  simp +decide [generate_diagram_pre, h1, h2]

/-- C2 (counterexample): two inputs that differ only in ASCII letter case are
classified differently by `appears_to_be_mermaid_code`: lower-case `import `
triggers the case-sensitive exclusion pattern, upper-case `IMPORT ` does not,
while the case-insensitive inclusion pattern matches both. So the heuristic is
not case-insensitive as a whole. -/
theorem c2_counterexample :
    (("sequencediagram import a").data).map Char.toLower =
      (("sequencediagram IMPORT a").data).map Char.toLower ∧
    appears_to_be_mermaid_code (("sequencediagram import a").data) = false ∧
    appears_to_be_mermaid_code (("sequencediagram IMPORT a").data) = true := by
  refine ⟨by decide, by decide, by decide⟩

/-- C2 (amended): the inclusion-pattern check of `appears_to_be_mermaid_code`
is case-insensitive — any two texts equal up to ASCII case agree on
`mermaid_patterns_match` — but the exclusion-pattern check (line 54, compiled
without `re.IGNORECASE`) is case-sensitive, witnessed by a concrete pair of
case-variants on which it differs. -/
theorem c2_amended_case_sensitivity :
    (∀ l1 l2 : List Char, l1.map Char.toLower = l2.map Char.toLower →
      mermaid_patterns_match (l1.map Char.toLower) =
        mermaid_patterns_match (l2.map Char.toLower)) ∧
    nonMermaidMatch (("sequencediagram import a").data) ≠
      nonMermaidMatch (("sequencediagram IMPORT a").data) := by
  constructor
  · intro l1 l2 h
    rw [h]
  · decide

theorem c2_amended_witness :
    mermaid_patterns_match (((("AbC --> d").data)).map Char.toLower) =
      mermaid_patterns_match (((("aBc --> D").data)).map Char.toLower) :=
  c2_amended_case_sensitivity.1 (("AbC --> d").data) (("aBc --> D").data) (by decide)

/-- C3: extraction behavior of `extract_mermaid_code`. First conjunct: a text
consisting of a backtick-free preamble, one fenced block with backtick-free
contents and an arbitrary tail returns exactly the trimmed interior of that
block (the interior is the fence body minus the optional language-tag line the
regex consumes). Second conjunct: a text containing no triple backtick returns
the trimmed input. Third conjunct: an unterminated fence (no closing triple
backtick after the opener) falls back to the trimmed input. The function is
total, so no error is ever raised. -/
theorem c3_extract_mermaid_code :
    (∀ a body b : List Char, ('\x60' : Char) ∉ a → ('\x60' : Char) ∉ body →
      extract_mermaid_code
        (a ++ '\x60' :: '\x60' :: '\x60' :: (body ++ '\x60' :: '\x60' :: '\x60' :: b)) =
        pyStrip (fenceBody body)) ∧
    (∀ text : List Char, ¬ (['\x60', '\x60', '\x60'] <:+: text) →
      extract_mermaid_code text = pyStrip text) ∧
    (∀ a b : List Char, ('\x60' : Char) ∉ a → ¬ (['\x60', '\x60', '\x60'] <:+: b) →
      extract_mermaid_code (a ++ '\x60' :: '\x60' :: '\x60' :: b) =
        pyStrip (a ++ '\x60' :: '\x60' :: '\x60' :: b)) := by
  refine ⟨?_, ?_, ?_⟩
  · intro a body b ha hbody
    unfold extract_mermaid_code
    rw [firstFence_append_no_tick ha, firstFence_cons_some (tryFence_clean hbody b)]
  · intro text htext
    unfold extract_mermaid_code
    rw [firstFence_all_none text (fun s hs =>
      tryFence_none_cond htext ((List.drop_suffix 3 s).trans hs))]
  · intro a b ha hb
    unfold extract_mermaid_code
    rw [firstFence_append_no_tick ha]
    have hnone : firstFence ('\x60' :: '\x60' :: '\x60' :: b) = none := by
      apply firstFence_all_none
      intro s hs
      rcases suffix_append_cases (show s <:+ ['\x60', '\x60', '\x60'] ++ b from hs) with
        h1 | ⟨x', hx', hx'ne, hseq⟩
      · exact tryFence_none_cond hb ((List.drop_suffix 3 s).trans h1)
      · apply tryFence_none_cond hb
        rw [hseq, List.drop_append_eq_append_drop]

        have hx'len : x'.length ≤ 3 := by
          have := hx'.length_le
          simpa using this
        rw [List.drop_eq_nil_of_le (by omega), List.nil_append]
        exact List.drop_suffix _ _
    rw [hnone]

theorem c3_witness :
    extract_mermaid_code
      ((("mermaid code:\n").data) ++ '\x60' :: '\x60' :: '\x60' ::
        ((("flowchart TD\nA-->B\n").data) ++ '\x60' :: '\x60' :: '\x60' :: [])) =
      pyStrip (fenceBody (("flowchart TD\nA-->B\n").data)) ∧
    extract_mermaid_code (("plain text").data) = pyStrip (("plain text").data) ∧
    extract_mermaid_code ((("see ").data) ++ '\x60' :: '\x60' :: '\x60' ::
      (("graph TD").data)) =
      pyStrip ((("see ").data) ++ '\x60' :: '\x60' :: '\x60' :: (("graph TD").data)) :=
  ⟨c3_extract_mermaid_code.1 (("mermaid code:\n").data) (("flowchart TD\nA-->B\n").data) []
      (by decide) (by decide),
    c3_extract_mermaid_code.2.1 (("plain text").data) (by decide),
    c3_extract_mermaid_code.2.2 (("see ").data) (("graph TD").data) (by decide) (by decide)⟩

/-- C4: the label sanitizer is idempotent — applying
`sanitize_markdown_in_labels` twice yields the same output as applying it
once, for every input. -/
theorem c4_sanitize_idempotent (l : List Char) :
    sanitize_markdown_in_labels (sanitize_markdown_in_labels l) =
      sanitize_markdown_in_labels l :=
  san_idem l

theorem c4_witness :
    sanitize_markdown_in_labels (sanitize_markdown_in_labels
      (("A[\"1. x<br/>- y\"] 1. z").data)) =
      sanitize_markdown_in_labels (("A[\"1. x<br/>- y\"] 1. z").data) :=
  c4_sanitize_idempotent (("A[\"1. x<br/>- y\"] 1. z").data)

/-- C5: frame property of the sanitizer — every input splits into alternating
gap segments and bracket-and-quote labels (`["..."]`, nonempty, quote-free)
such that the output is the same decomposition with only the label interiors
rewritten by `sanitize_label`; every character outside the matched labels is
carried over unchanged. -/
theorem c5_sanitize_frame : ∀ l : List Char, ∃ g0 ps,
    l = assemble (fun x => x) g0 ps ∧
    sanitize_markdown_in_labels l = assemble sanitize_label g0 ps ∧
    ∀ p ∈ ps, p.1 ≠ [] ∧ ('"' : Char) ∉ p.1 :=
  san_frame

theorem c5_witness : ∃ g0 ps,
    (("x 1. y[\"a\"]").data) = assemble (fun x => x) g0 ps ∧
    sanitize_markdown_in_labels (("x 1. y[\"a\"]").data) = assemble sanitize_label g0 ps ∧
    ∀ p ∈ ps, p.1 ≠ [] ∧ ('"' : Char) ∉ p.1 :=
  c5_sanitize_frame (("x 1. y[\"a\"]").data)

/-- C6 (counterexample): a text containing the substring `sequenceDiagram` is
nonetheless classified as not diagram-like, because it also matches the
exclusion pattern (`import` followed by whitespace). This refutes the claim's
first conjunct as stated. -/
theorem c6_counterexample :
    (("sequenceDiagram").data <:+: ("sequenceDiagram\nimport os").data) ∧
    appears_to_be_mermaid_code (("sequenceDiagram\nimport os").data) = false := by
  refine ⟨by decide, by decide⟩

/-- C6 (amended): a text containing `sequenceDiagram` or `flowchart TD` that
does not match the exclusion pattern is classified as diagram-like; and every
text containing a line starting with `import ` (at the start or after a
newline) is classified as not diagram-like — the claim's second conjunct holds
even without its "no diagram keyword" proviso. -/
theorem c6_amended_monotonicity :
    (∀ l : List Char,
      ((("sequenceDiagram").data <:+: l) ∨ (("flowchart TD").data <:+: l)) →
      nonMermaidMatch l = false → appears_to_be_mermaid_code l = true) ∧
    (∀ l : List Char,
      ((("import ").data <+: l) ∨ (('\n' :: ("import ").data) <:+: l)) →
      appears_to_be_mermaid_code l = false) := by
  constructor
  · intro l h hex
    unfold appears_to_be_mermaid_code
    rw [hex]
    have hinc : mermaid_patterns_match (l.map Char.toLower) = true := by
      rcases h with h | h
      · have h1 := infix_map_toLower h
        rw [show (("sequenceDiagram").data).map Char.toLower =
          ("sequencediagram").data from by decide] at h1
        have h2 := containsSub_complete h1
        unfold mermaid_patterns_match
        rw [h2]
        simp
      · have h1 := infix_map_toLower h
        rw [show (("flowchart TD").data).map Char.toLower =
          ("flowchart td").data from by decide] at h1
        obtain ⟨s, t, hst⟩ := h1
        have h3 : l.map Char.toLower = s ++ ("flowchart").data ++ ' ' ::
            (("td").data ++ t) := by
          rw [← hst]
          simp
        have h2 : hasPatWS (("flowchart").data) (l.map Char.toLower) = true := by
          rw [h3]
          exact hasPatWS_of (by decide)
        unfold mermaid_patterns_match
        rw [h2]
        simp
    rw [hinc]
    rfl
  · intro l h
    have himp : hasPatWS (("import").data) l = true := by
      rcases h with h | h
      · obtain ⟨t, ht⟩ := h
        have h3 : l = [] ++ ("import").data ++ ' ' :: t := by
          rw [← ht]
          rfl
        rw [h3]
        exact hasPatWS_of (by decide)
      · obtain ⟨s, t, hst⟩ := h
        have h3 : l = (s ++ ['\n']) ++ ("import").data ++ ' ' :: t := by
          rw [← hst]
          simp
        rw [h3]
        exact hasPatWS_of (by decide)
    unfold appears_to_be_mermaid_code nonMermaidMatch
    rw [himp]
    simp

theorem c6_amended_witness :
    appears_to_be_mermaid_code (("sequenceDiagram\nAlice->>Bob: hi").data) = true ∧
    appears_to_be_mermaid_code (("import os\nx = 1").data) = false :=
  ⟨c6_amended_monotonicity.1 (("sequenceDiagram\nAlice->>Bob: hi").data)
      (Or.inl (by decide)) (by decide),
    c6_amended_monotonicity.2 (("import os\nx = 1").data) (Or.inl (by decide))⟩

/-- C7: a `generate_diagram` request with an empty diagram source or an empty
output name is rejected with the hard input error (`raise ValueError`, modelled
as `missingInput`) before any extraction, sanitization or render work: the
emptiness checks are the first two branches of the embedded handler, so no
other computation occurs on this path. -/
theorem c7_missing_input (mc fn : List Char) (h : mc = [] ∨ fn = []) :
    generate_diagram_pre mc fn = GenPhase1.missingInput := by
  unfold generate_diagram_pre
  rcases h with h | h
  · rw [if_pos h]
  · by_cases h2 : mc = []
    · rw [if_pos h2]
    · rw [if_neg h2, if_pos h]

theorem c7_witness :
    generate_diagram_pre [] (("diagram").data) = GenPhase1.missingInput ∧
    generate_diagram_pre (("graph TD").data) [] = GenPhase1.missingInput :=
  ⟨c7_missing_input [] (("diagram").data) (Or.inl rfl),
    c7_missing_input (("graph TD").data) [] (Or.inr rfl)⟩

/-- C8: the validate operation returns the `EmptyInput` verdict on the empty
string and the `LooksInvalid` verdict on `def foo(): pass` (the heuristic is
false on it). The embedding of this branch is a pure function of the input
text alone — it takes no filesystem or subprocess parameters, witnessing that
the branch touches neither layer. -/
theorem c8_validate_verdicts :
    validate_mermaid [] = ValidateVerdict.emptyInput ∧
    validate_mermaid (("def foo(): pass").data) = ValidateVerdict.looksInvalid := by
  refine ⟨by decide, by decide⟩

/-- C9: whenever the durable copy's reported size differs from the artifact's
byte length after a successful render and write, the handler reports the
`PersistFailed` outcome ("Error saving file ...") — never a success report. -/
theorem c9_persist_size_mismatch (stderr decoded : List Char)
    (file_len actual_size : Nat) (fmt bg : List Char) (h : actual_size ≠ file_len) :
    finish_generate 0 stderr true file_len decoded true actual_size fmt bg =
      RenderReport.persistFailed := by
  unfold finish_generate
  simp [h]

theorem c9_witness :
    finish_generate 0 [] true 3 (("abc").data) true 2 (("svg").data)
      (("transparent").data) = RenderReport.persistFailed :=
  c9_persist_size_mismatch [] (("abc").data) 3 2 (("svg").data) (("transparent").data)
    (by decide)

/-- C10: every successful SVG render requested with background `transparent`
returns a text (the same text that is re-persisted to the durable file) in
which no literal occurrence of `background-color: white;` remains: the
handler replaces every occurrence, and the replacement cannot create new
ones. -/
theorem c10_transparent_svg_no_white (stderr decoded : List Char)
    (file_len actual_size : Nat) (output_exists permanent_exists : Bool)
    (svg : List Char)
    (h : finish_generate 0 stderr output_exists file_len decoded permanent_exists
      actual_size (("svg").data) (("transparent").data) =
      RenderReport.succeededSvg svg) :
    ¬ ((("background-color: white;").data) <:+: svg) := by
  unfold finish_generate at h
  rw [if_neg (show ¬ ((0 : Int) ≠ 0) from by simp)] at h
  cases output_exists with
  | false => simp at h
  | true =>
    rw [if_pos rfl] at h
    cases permanent_exists with
    | false => simp at h
    | true =>
      rw [if_neg (show ¬ ¬ (true : Bool) = true from by simp)] at h
      by_cases hsz : actual_size ≠ file_len
      · rw [if_pos hsz] at h
        simp at h
      · rw [if_neg hsz, if_pos rfl] at h
        rw [if_pos rfl] at h
        have hsvg := (RenderReport.succeededSvg.inj h).symm
        rw [hsvg]
        exact replaceAll_not_infix_self (by decide) (by decide) (by decide) (by decide)
          decoded

theorem c10_witness :
    ¬ ((("background-color: white;").data) <:+:
      (("<svg><style>background-color: transparent;</style></svg>").data)) :=
  c10_transparent_svg_no_white [] (("<svg><style>background-color: white;</style></svg>").data)
    47 47 true true
    (("<svg><style>background-color: transparent;</style></svg>").data)
    (by simp +decide [finish_generate, replaceAll])

example : extract_mermaid_code (("```mermaid\ngraph TD\nA-->B\n```").data) =
    (("graph TD\nA-->B").data) := by decide
example : extract_mermaid_code (("```flowchart TD\nA-->B\n```").data) =
    (("flowchart TD\nA-->B").data) := by decide
example : extract_mermaid_code (("no fence here").data) = (("no fence here").data) := by decide
example : extract_mermaid_code (("  \n ").data) = [] := by decide
example : sanitize_markdown_in_labels (("A[\"1. x<br/>- y\"] 1. z").data) =
    (("A[\"1: x\\n- y\"] 1. z").data) := by
  simp +decide [sanitize_markdown_in_labels, sanitize_label, sub_numdot, sub_lead_dash,
    sub_nl_dash, replace_br_slash, replace_br, replaceAll]
example : appears_to_be_mermaid_code (("def foo(): pass").data) = false := by decide
example : appears_to_be_mermaid_code (("flowchart TD").data) = true := by decide
example : appears_to_be_mermaid_code (("sequenceDiagram\nimport os").data) = false := by decide
example : appears_to_be_mermaid_code (("sequencediagram IMPORT a").data) = true := by decide
example : appears_to_be_mermaid_code (("pie  title x").data) = true := by decide
example : validate_mermaid [] = .emptyInput := by decide
example : validate_mermaid (("def foo(): pass").data) = .looksInvalid := by decide
example : generate_diagram_pre (("just some plain text").data) (("out").data) =
    .warningOnly := by
  have h1 : extract_mermaid_code (("just some plain text").data) =
      (("just some plain text").data) := by decide
  have h2 : sanitize_markdown_in_labels (("just some plain text").data) =
      (("just some plain text").data) := by
    simp +decide [sanitize_markdown_in_labels]
  simp +decide [generate_diagram_pre, h1, h2]
